import Mathlib

/-! Rover-VCS: a shallow embedding of `Rover.mjs`.

The repository is one JavaScript file, a small content-addressed version-control
tool.  The embedding below has three layers.

* The JavaScript runtime pieces the program relies on: `JSON.stringify` /
  `JSON.parse`, property access, truthiness, `for … of`, strict equality.
* The persisted state (`objects/`, `HEAD`, `index`) with file reads and writes.
* The methods of `class Rover`, translated statement by statement.

Two library functions are parameters of the development: `hash` stands for
`crypto.createHash("sha1").update(content, "utf-8").digest("hex")` and
`diffLines` for the function of the same name of the `diff` package.
-/

namespace Rover

/-! ## JavaScript runtime: errors and JSON values -/

/-- The exceptions the program can raise.  `unmodelled` is not a JavaScript
exception: it marks an input on which this development makes no statement
(numeric JSON literals, surrogate escapes, object keys whose enumeration order
JavaScript rearranges, file names that are not direct children of `objects/`). -/
inductive JsError where
  | syntaxError
  | typeError
  | ioError
  | unmodelled
  deriving DecidableEq, Repr

/-- JSON values without numbers. -/
inductive Json where
  | null : Json
  | bool (b : Bool) : Json
  | str (s : String) : Json
  | arr (xs : List Json) : Json
  | obj (ms : List (String × Json)) : Json
  deriving Repr

/-- The tokens of JSON text. -/
inductive Tok where
  | lbrack | rbrack | lbrace | rbrace | comma | colon
  | str (s : String)
  | tNull | tTrue | tFalse
  deriving DecidableEq, Repr

/-! ### `JSON.stringify` -/

/-- Lower-case hexadecimal digit of a number below 16. -/
def hexDigit (n : Nat) : Char :=
  if n < 10 then Char.ofNat (48 + n) else Char.ofNat (87 + n)

/-- The text `JSON.stringify` writes for one character of a string
(`QuoteJSONString`): the two-character escapes, `\u00xx` for the other control
characters, the character itself otherwise. -/
def escChar (c : Char) : List Char :=
  if c = '"' then ['\\', '"']
  else if c = '\\' then ['\\', '\\']
  else if c = '\x08' then ['\\', 'b']
  else if c = '\x0c' then ['\\', 'f']
  else if c = '\n' then ['\\', 'n']
  else if c = '\r' then ['\\', 'r']
  else if c = '\t' then ['\\', 't']
  else if c.toNat < 32 then ['\\', 'u', '0', '0', hexDigit (c.toNat / 16), hexDigit (c.toNat % 16)]
  else [c]

/-- Body of a quoted string. -/
def escChars : List Char → List Char
  | [] => []
  | c :: cs => escChar c ++ escChars cs

/-- The text of one token. -/
def renderTok : Tok → List Char
  | .lbrack => ['[']
  | .rbrack => [']']
  | .lbrace => ['{']
  | .rbrace => ['}']
  | .comma => [',']
  | .colon => [':']
  | .str s => '"' :: (escChars s.data ++ ['"'])
  | .tNull => ['n', 'u', 'l', 'l']
  | .tTrue => ['t', 'r', 'u', 'e']
  | .tFalse => ['f', 'a', 'l', 's', 'e']

/-- The text of a token sequence; `JSON.stringify` writes no white space. -/
def render : List Tok → List Char
  | [] => []
  | t :: ts => renderTok t ++ render ts

mutual
/-- Tokens of a value, in the order `JSON.stringify` writes them. -/
def Json.toks : Json → List Tok
  | .null => [.tNull]
  | .bool true => [.tTrue]
  | .bool false => [.tFalse]
  | .str s => [.str s]
  | .arr xs => .lbrack :: (elemToks xs ++ [.rbrack])
  | .obj ms => .lbrace :: (memberToks ms ++ [.rbrace])
/-- Comma-separated elements of an array. -/
def elemToks : List Json → List Tok
  | [] => []
  | [x] => x.toks
  | x :: y :: r => x.toks ++ .comma :: elemToks (y :: r)
/-- Comma-separated `key:value` members of an object, in insertion order. -/
def memberToks : List (String × Json) → List Tok
  | [] => []
  | [(k, v)] => .str k :: .colon :: v.toks
  | (k, v) :: m :: r => .str k :: .colon :: (v.toks ++ .comma :: memberToks (m :: r))
end

/-- Text of `JSON.stringify(v)` for a value without `undefined` members. -/
def jsonStringify (v : Json) : String :=
  String.mk (render v.toks)

/-! ### `JSON.parse`: lexer

The lexer is a state machine that reads one character at a time. -/

/-- Where the lexer is inside the text. -/
inductive LexMode where
  /-- between tokens -/
  | normal
  /-- inside `null`, `true` or `false`: the characters still expected -/
  | kw (rest : List Char) (t : Tok)
  /-- inside a string; `acc` holds the characters read so far, last first -/
  | inStr (acc : List Char)
  /-- after a backslash inside a string -/
  | esc (acc : List Char)
  /-- after `\u`: `n` is the value of the `k` hexadecimal digits read so far -/
  | uni (acc : List Char) (n : Nat) (k : Nat)
  deriving Repr

/-- Lexer state: the tokens produced so far (last first) and the mode. -/
structure LexState where
  toks : List Tok
  mode : LexMode
  deriving Repr

/-- JSON white space. -/
def isWs (c : Char) : Bool :=
  c = ' ' || c = '\t' || c = '\n' || c = '\r'

/-- Value of a hexadecimal digit. -/
def hexVal (c : Char) : Option Nat :=
  if 48 ≤ c.toNat ∧ c.toNat ≤ 57 then some (c.toNat - 48)
  else if 97 ≤ c.toNat ∧ c.toNat ≤ 102 then some (c.toNat - 87)
  else if 65 ≤ c.toNat ∧ c.toNat ≤ 70 then some (c.toNat - 55)
  else none

/-- One step of the lexer. -/
def lexStep (st : LexState) (c : Char) : Except JsError LexState :=
  match st.mode with
  | .normal =>
    if isWs c then .ok st
    else if c = '[' then .ok ⟨.lbrack :: st.toks, .normal⟩
    else if c = ']' then .ok ⟨.rbrack :: st.toks, .normal⟩
    else if c = '{' then .ok ⟨.lbrace :: st.toks, .normal⟩
    else if c = '}' then .ok ⟨.rbrace :: st.toks, .normal⟩
    else if c = ',' then .ok ⟨.comma :: st.toks, .normal⟩
    else if c = ':' then .ok ⟨.colon :: st.toks, .normal⟩
    else if c = '"' then .ok ⟨st.toks, .inStr []⟩
    else if c = 'n' then .ok ⟨st.toks, .kw ['u', 'l', 'l'] .tNull⟩
    else if c = 't' then .ok ⟨st.toks, .kw ['r', 'u', 'e'] .tTrue⟩
    else if c = 'f' then .ok ⟨st.toks, .kw ['a', 'l', 's', 'e'] .tFalse⟩
    else if c = '-' ∨ (48 ≤ c.toNat ∧ c.toNat ≤ 57) then .error .unmodelled
    else .error .syntaxError
  | .kw [] _ => .error .syntaxError
  | .kw [x] t => if c = x then .ok ⟨t :: st.toks, .normal⟩ else .error .syntaxError
  | .kw (x :: y :: r) t => if c = x then .ok ⟨st.toks, .kw (y :: r) t⟩ else .error .syntaxError
  | .inStr acc =>
    if c = '"' then .ok ⟨.str (String.mk acc.reverse) :: st.toks, .normal⟩
    else if c = '\\' then .ok ⟨st.toks, .esc acc⟩
    else if c.toNat < 32 then .error .syntaxError
    else .ok ⟨st.toks, .inStr (c :: acc)⟩
  | .esc acc =>
    if c = '"' then .ok ⟨st.toks, .inStr ('"' :: acc)⟩
    else if c = '\\' then .ok ⟨st.toks, .inStr ('\\' :: acc)⟩
    else if c = '/' then .ok ⟨st.toks, .inStr ('/' :: acc)⟩
    else if c = 'b' then .ok ⟨st.toks, .inStr ('\x08' :: acc)⟩
    else if c = 'f' then .ok ⟨st.toks, .inStr ('\x0c' :: acc)⟩
    else if c = 'n' then .ok ⟨st.toks, .inStr ('\n' :: acc)⟩
    else if c = 'r' then .ok ⟨st.toks, .inStr ('\r' :: acc)⟩
    else if c = 't' then .ok ⟨st.toks, .inStr ('\t' :: acc)⟩
    else if c = 'u' then .ok ⟨st.toks, .uni acc 0 0⟩
    else .error .syntaxError
  | .uni acc n k =>
    match hexVal c with
    | none => .error .syntaxError
    | some d =>
      if k < 3 then .ok ⟨st.toks, .uni acc (16 * n + d) (k + 1)⟩
      else if 0xD800 ≤ 16 * n + d ∧ 16 * n + d ≤ 0xDFFF then .error .unmodelled
      else .ok ⟨st.toks, .inStr (Char.ofNat (16 * n + d) :: acc)⟩

/-- Run the lexer over a text from a given state. -/
def lexRun : LexState → List Char → Except JsError LexState
  | st, [] => .ok st
  | st, c :: cs =>
    match lexStep st c with
    | .ok st' => lexRun st' cs
    | .error e => .error e

/-- Tokens of a text; the text must not end inside a token. -/
def lex (cs : List Char) : Except JsError (List Tok) :=
  match lexRun ⟨[], .normal⟩ cs with
  | .ok ⟨ts, .normal⟩ => .ok ts.reverse
  | .ok _ => .error .syntaxError
  | .error e => .error e

/-! ### `JSON.parse`: parser

A pushdown automaton over tokens.  The stack holds the arrays and objects that
are still open. -/

/-- An array or object under construction. -/
inductive Frame where
  /-- array with the elements read so far -/
  | arrF (done : List Json)
  /-- object with the members read so far -/
  | objF (done : List (String × Json))
  /-- object with the members read so far and the key of the member being read -/
  | objK (done : List (String × Json)) (key : String)
  deriving Repr

/-- What the parser expects next. -/
inductive Expect where
  /-- a value -/
  | val
  /-- a value or `]`, right after `[` -/
  | valOrEnd
  /-- Either `,` or the closing bracket, after a value -/
  | sep
  /-- a key or `}`, right after `{` -/
  | keyOrEnd
  /-- a key, after `,` in an object -/
  | key
  /-- the colon after a key -/
  | colon
  deriving DecidableEq, Repr

/-- Parser state. -/
inductive PState where
  | run (stack : List Frame) (e : Expect)
  | done (v : Json)
  deriving Repr

/-- A key that JavaScript lists before the others when it enumerates an object:
all digits.  (Only canonical array indices are moved; every all-digit key is
left out of the model.) -/
def isIndexKey (k : String) : Bool :=
  k.data ≠ [] && k.data.all (fun c => 48 ≤ c.toNat && c.toNat ≤ 57)

/-- The keys of a parsed object are pairwise different and none is an index key,
so that insertion order is enumeration order. -/
def keysOk (ms : List (String × Json)) : Bool :=
  (ms.map Prod.fst).Nodup && (ms.map Prod.fst).all (fun k => !isIndexKey k)

/-- Hand a completed value to the enclosing array or object. -/
def deliver (v : Json) : List Frame → Except JsError PState
  | [] => .ok (.done v)
  | .arrF es :: st => .ok (.run (.arrF (es ++ [v]) :: st) .sep)
  | .objK ms k :: st => .ok (.run (.objF (ms ++ [(k, v)]) :: st) .sep)
  | .objF _ :: _ => .error .syntaxError

/-- One step of the parser. -/
def parseStep : PState → Tok → Except JsError PState
  | .done _, _ => .error .syntaxError
  | .run st e, t =>
    match t with
    | .tNull => if e = .val ∨ e = .valOrEnd then deliver .null st else .error .syntaxError
    | .tTrue => if e = .val ∨ e = .valOrEnd then deliver (.bool true) st else .error .syntaxError
    | .tFalse => if e = .val ∨ e = .valOrEnd then deliver (.bool false) st else .error .syntaxError
    | .str s =>
      if e = .val ∨ e = .valOrEnd then deliver (.str s) st
      else if e = .key ∨ e = .keyOrEnd then
        match st with
        | .objF ms :: st' => .ok (.run (.objK ms s :: st') .colon)
        | _ => .error .syntaxError
      else .error .syntaxError
    | .lbrack =>
      if e = .val ∨ e = .valOrEnd then .ok (.run (.arrF [] :: st) .valOrEnd)
      else .error .syntaxError
    | .lbrace =>
      if e = .val ∨ e = .valOrEnd then .ok (.run (.objF [] :: st) .keyOrEnd)
      else .error .syntaxError
    | .rbrack =>
      if e = .sep ∨ e = .valOrEnd then
        match st with
        | .arrF es :: st' => deliver (.arr es) st'
        | _ => .error .syntaxError
      else .error .syntaxError
    | .rbrace =>
      if e = .sep ∨ e = .keyOrEnd then
        match st with
        | .objF ms :: st' => if keysOk ms then deliver (.obj ms) st' else .error .unmodelled
        | _ => .error .syntaxError
      else .error .syntaxError
    | .comma =>
      if e = .sep then
        match st with
        | .arrF es :: st' => .ok (.run (.arrF es :: st') .val)
        | .objF ms :: st' => .ok (.run (.objF ms :: st') .key)
        | _ => .error .syntaxError
      else .error .syntaxError
    | .colon =>
      if e = .colon then
        match st with
        | .objK ms k :: st' => .ok (.run (.objK ms k :: st') .val)
        | _ => .error .syntaxError
      else .error .syntaxError

/-- Run the parser over a token sequence from a given state. -/
def parseRun : PState → List Tok → Except JsError PState
  | st, [] => .ok st
  | st, t :: ts =>
    match parseStep st t with
    | .ok st' => parseRun st' ts
    | .error e => .error e

/-- The value a token sequence denotes; exactly one value, nothing after it. -/
def parseToks (ts : List Tok) : Except JsError Json :=
  match parseRun (.run [] .val) ts with
  | .ok (.done v) => .ok v
  | .ok (.run _ _) => .error .syntaxError
  | .error e => .error e

/-- Result of `JSON.parse(text)` for a string argument. -/
def jsonParse (text : String) : Except JsError Json :=
  match lex text.data with
  | .ok ts => parseToks ts
  | .error e => .error e

/-! ## JavaScript runtime: values the program computes with -/

/-- A JavaScript value as the program sees it: `none` is `undefined`, `some v` is
a value that `JSON.parse` returned or that is built from strings and `null`. -/
abbrev JsVal := Option Json

/-- Property read `v.k`, for the six property names the program reads
(`files`, `parent`, `timestamp`, `message`, `path`, `hash`), none of which is
defined on a prototype.  Reading a property of `null` or `undefined` raises a
`TypeError`. -/
def getProp (v : JsVal) (k : String) : Except JsError JsVal :=
  match v with
  | none => .error .typeError
  | some .null => .error .typeError
  | some (.obj ms) => .ok (ms.lookup k)
  | some _ => .ok none

/-- Truthiness of a value (`if (v)`, `while (v)`, `!v`). -/
def truthy : JsVal → Bool
  | none => false
  | some .null => false
  | some (.bool b) => b
  | some (.str s) => s ≠ ""
  | some (.arr _) => true
  | some (.obj _) => true

/-- Strict equality `a === b`.  Arrays and objects obtained from different calls
of `JSON.parse` are different references. -/
def strictEq : JsVal → JsVal → Bool
  | none, none => true
  | some .null, some .null => true
  | some (.bool a), some (.bool b) => a = b
  | some (.str a), some (.str b) => a = b
  | _, _ => false

/-- The values `for (const x of v)` visits: the elements of an array, the
characters of a string; anything else is not iterable. -/
def forOf : JsVal → Except JsError (List JsVal)
  | some (.arr xs) => .ok (xs.map some)
  | some (.str s) => .ok (s.data.map fun c => some (.str (String.mk [c])))
  | _ => .error .typeError

/-- The text `JSON.parse` reads when it is handed a Promise: `JSON.parse`
converts its argument to a string, and a Promise converts to this text. -/
def promiseText : String := "[object Promise]"

/-- Result of `JSON.parse(x)` where `x` is a string or `null`; `null` converts to the
text `null`. -/
def jsonParseArg (x : Option String) : Except JsError Json :=
  jsonParse (x.getD "null")

/-! ## Persisted state -/

/-- The `.rover` directory: the files of `objects/` by name, the `HEAD` file and
the `index` file (`none`: the file does not exist).  The directory `objects/`
itself exists: the constructor creates it on every run. -/
structure State where
  objects : String → Option String
  head : Option String
  index : Option String

/-- A name that `path.join(this.objectsPath, name)` maps to a direct child of
`objects/`: not empty, not `.` or `..`, without `/` and without a NUL
character. -/
def plainName (name : String) : Bool :=
  name ≠ "" && name ≠ "." && name ≠ ".." && !name.data.contains '/' && !name.data.contains '\x00'

/-- The read `fs.readFile(path.join(this.objectsPath, name), "utf-8")`. -/
def readObject (s : State) (name : String) : Except JsError String :=
  if plainName name then
    match s.objects name with
    | some c => .ok c
    | none => .error .ioError
  else .error .unmodelled

/-- The write `fs.writeFile(path.join(this.objectsPath, name), content)`: creates the file
or replaces its content. -/
def writeObject (s : State) (name content : String) : Except JsError State :=
  if plainName name then
    .ok { s with objects := fun k => if k = name then some content else s.objects k }
  else .error .unmodelled

/-- The `.rover` directory before `HEAD` and `index` are created. -/
def noRepo : State := ⟨fun _ => none, none, none⟩

/-! ## Console output -/

/-- One part of the result of `diffLines`. -/
structure DiffPart where
  value : String
  added : Bool
  removed : Bool
  deriving DecidableEq, Repr

/-- What the program prints, one constructor per output statement. -/
inductive Out where
  /-- Output `Already initialized the .rover folder` -/
  | alreadyInit
  /-- Output `console.log(fileHash)` in `addFile` -/
  | hashLine (h : String)
  /-- Output `Added ${fileToBeAdded}` -/
  | added (path : String)
  /-- Output `commit successfully created : ${commitHash}` -/
  | committed (h : String)
  /-- the rule of tildes in `log` -/
  | logRule
  /-- Output `Commit : ${hash} Date: ${timestamp} ${message}` in `log` -/
  | logEntry (h : JsVal) (timestamp message : JsVal)
  /-- Output `Could not read commit Data` with the error -/
  | couldNotRead
  /-- Output `Commit was not found` -/
  | notFound
  /-- Output `Changes from the last commit are : ` -/
  | changes
  /-- Output `File : ${file.path}` -/
  | file (path : JsVal)
  /-- Output `console.log(fileContent)` -/
  | content (c : String)
  /-- Output `Diff : ` -/
  | diffHeader
  /-- Output `console.log(diff)` -/
  | diffDump (d : List DiffPart)
  /-- Output `process.stdout.write(chalk.green(part.value))` -/
  | green (v : String)
  /-- Output `process.stdout.write(chalk.yellow(part.value))` -/
  | yellow (v : String)
  /-- Output `console.log()` -/
  | blank
  /-- Output `New file in this commit ` -/
  | newFile
  /-- Output `this is the first commit ` -/
  | firstCommit

/-- The outcome of a method call: the state it leaves, what it printed, and
whether it returned or raised. -/
structure Result where
  state : State
  out : List Out
  err : Option JsError

/-! ## The methods of `class Rover` -/

section Methods

variable (hash : String → String) (diffLines : String → String → List DiffPart)

/-- Method `init()`: `HEAD` and `index` are created with flag `wx`; the first write that
finds its file present raises, which skips the rest and prints a message. -/
def init (s : State) : Result :=
  match s.head with
  | some _ => ⟨s, [.alreadyInit], none⟩
  | none =>
    match s.index with
    | some _ => ⟨{ s with head := some "" }, [.alreadyInit], none⟩
    | none => ⟨{ s with head := some "", index := some (jsonStringify (.arr [])) }, [], none⟩

/-- A freshly initialised repository. -/
def fresh : State := (init noRepo).state

/-- The object `{ path: filePath, hash: fileHash }`. -/
def stagingEntry (filePath fileHash : String) : Json :=
  .obj [("path", .str filePath), ("hash", .str fileHash)]

/-- Method `updateStagingArea(filePath, fileHash)`. -/
def updateStagingArea (s : State) (filePath fileHash : String) : Except JsError State :=
  match s.index with
  | none => .error .ioError
  | some text =>
    match jsonParse text with
    | .error e => .error e
    | .ok (.arr xs) =>
      .ok { s with index := some (jsonStringify (.arr (xs ++ [stagingEntry filePath fileHash]))) }
    | .ok _ => .error .typeError

/-- Method `addFile(fileToBeAdded)`, where `fileData` is the text that reading the file
returned (a failed read raises before anything is written). -/
def addFile (s : State) (fileToBeAdded fileData : String) : Result :=
  let fileHash := hash fileData
  match writeObject s fileHash fileData with
  | .error e => ⟨s, [.hashLine fileHash], some e⟩
  | .ok s1 =>
    match updateStagingArea s1 fileToBeAdded fileHash with
    | .error e => ⟨s1, [.hashLine fileHash], some e⟩
    | .ok s2 => ⟨s2, [.hashLine fileHash, .added fileToBeAdded], none⟩

/-- Method `getCurrentHead()`: the text of `HEAD`, or `null` when it cannot be read. -/
def getCurrentHead (s : State) : Json :=
  match s.head with
  | some h => .str h
  | none => .null

/-- The record `commit` builds (`commitData`); `timestamp` is the value of
`new Date().toISOString()`. -/
def commitData (index : Json) (parentCommit : Json) (message timestamp : String) : Json :=
  .obj [("timestamp", .str timestamp), ("message", .str message), ("files", index),
    ("parent", parentCommit)]

/-- Lines 54 to 65 of `commit`: the text `JSON.stringify(commitData)` that is
hashed and then written. -/
def commitText (s : State) (message timestamp : String) : Except JsError String :=
  match s.index with
  | none => .error .ioError
  | some text =>
    match jsonParse text with
    | .error e => .error e
    | .ok index => .ok (jsonStringify (commitData index (getCurrentHead s) message timestamp))

/-- Method `commit(message)`. -/
def commit (s : State) (message timestamp : String) : Result :=
  match commitText s message timestamp with
  | .error e => ⟨s, [], some e⟩
  | .ok text =>
    let commitHash := hash text
    match writeObject s commitHash text with
    | .error e => ⟨s, [], some e⟩
    | .ok s1 =>
      ⟨{ s1 with head := some commitHash, index := some (jsonStringify (.arr [])) },
        [.committed commitHash], none⟩

/-- Method `getFileContent(fileHash)`; `path.join` raises a `TypeError` for an argument
that is not a string. -/
def getFileContent (s : State) (fileHash : JsVal) : Except JsError String :=
  match fileHash with
  | some (.str h) => readObject s h
  | _ => .error .typeError

/-- Method `getCommitData(commithash)` for a string argument: the text of the object, or
`null` and a console message when it cannot be read. -/
def getCommitData (s : State) (commithash : String) : Except JsError (Option String × List Out) :=
  match readObject s commithash with
  | .ok text => .ok (some text, [])
  | .error .unmodelled => .error .unmodelled
  | .error _ => .ok (none, [.couldNotRead])

/-- The body of `log`'s loop, run at most `fuel` times; `none` when the loop is
still running after `fuel` rounds. -/
def logLoop (s : State) : Nat → JsVal → List Out → Option Result
  | 0, cur, out => if truthy cur then none else some ⟨s, out, none⟩
  | fuel + 1, cur, out =>
    if truthy cur then
      match getFileContent s cur with
      | .error e => some ⟨s, out, some e⟩
      | .ok text =>
        match jsonParse text with
        | .error e => some ⟨s, out, some e⟩
        | .ok data =>
          match getProp (some data) "timestamp", getProp (some data) "message",
              getProp (some data) "parent" with
          | .ok ts, .ok msg, .ok parent =>
            logLoop s fuel parent (out ++ [.logRule, .logEntry cur ts msg])
          | _, _, _ => some ⟨s, out ++ [.logRule], some .typeError⟩
    else some ⟨s, out, none⟩

/-- Method `log()`. -/
def log (s : State) (fuel : Nat) : Option Result :=
  logLoop s fuel (some (getCurrentHead s)) []

/-- The search `files.find((file) => file.path === filePath)`. -/
def findFile (filePath : JsVal) : List Json → Except JsError JsVal
  | [] => .ok none
  | f :: fs =>
    match getProp (some f) "path" with
    | .error e => .error e
    | .ok p => if strictEq p filePath then .ok (some f) else findFile filePath fs

/-- Method `getParentFileContent(parentCommitData, filePath)`: the content of the
parent's file of that path, `undefined` (`none`) when the parent has none. -/
def getParentFileContent (s : State) (parentCommitData : JsVal) (filePath : JsVal) :
    Except JsError (Option String) :=
  match getProp parentCommitData "files" with
  | .error e => .error e
  | .ok (some (.arr fs)) =>
    match findFile filePath fs with
    | .error e => .error e
    | .ok parentFile =>
      if truthy parentFile then
        match getProp parentFile "hash" with
        | .error e => .error e
        | .ok h =>
          match getFileContent s h with
          | .error e => .error e
          | .ok c => .ok (some c)
      else .ok none
  | .ok _ => .error .typeError

/-- What the `forEach` over the parts of a diff prints. -/
def printPart (part : DiffPart) : Out :=
  if part.added then .green part.value
  else if part.removed then .green part.value
  else .yellow part.value

/-- One round of the loop of `showCommitDiff` (lines 105 to 135): what is
printed for `file`, and the exception if one is raised.

In the branch of a commit with a parent, line 110 passes the Promise returned
by `getCommitData` to `JSON.parse` without awaiting it; `JSON.parse` then
reads `promiseText`. -/
def showFile (s : State) (data : JsVal) (file : JsVal) : List Out × Option JsError :=
  match getProp file "path" with
  | .error e => ([], some e)
  | .ok path =>
    match getProp file "hash" with
    | .error e => ([.file path], some e)
    | .ok fileHash =>
      match getFileContent s fileHash with
      | .error e => ([.file path], some e)
      | .ok fileContent =>
        match getProp data "parent" with
        | .error e => ([.file path, .content fileContent], some e)
        | .ok parent =>
          if truthy parent then
            match jsonParse promiseText with
            | .error e => ([.file path, .content fileContent], some e)
            | .ok parentCommitData =>
              match getParentFileContent s (some parentCommitData) path with
              | .error e => ([.file path, .content fileContent], some e)
              | .ok (some parentContent) =>
                let diff := diffLines parentContent fileContent
                ([.file path, .content fileContent, .diffHeader, .diffDump diff]
                  ++ diff.map printPart ++ [.blank], none)
              | .ok none => ([.file path, .content fileContent, .newFile], none)
          else ([.file path, .content fileContent, .firstCommit], none)

/-- The loop of `showCommitDiff` over the files of the commit. -/
def showFiles (s : State) (data : JsVal) : List JsVal → List Out × Option JsError
  | [] => ([], none)
  | f :: fs =>
    match showFile diffLines s data f with
    | (o, some e) => (o, some e)
    | (o, none) => ((o ++ (showFiles s data fs).1), (showFiles s data fs).2)

/-- Method `showCommitDiff(commitHash)`. -/
def showCommitDiff (s : State) (commitHash : String) : Result :=
  match getCommitData s commitHash with
  | .error e => ⟨s, [], some e⟩
  | .ok (text, o) =>
    match jsonParseArg text with
    | .error e => ⟨s, o, some e⟩
    | .ok data =>
      if !truthy (some data) then ⟨s, o ++ [.notFound], none⟩
      else
        match getProp (some data) "files" with
        | .error e => ⟨s, o ++ [.changes], some e⟩
        | .ok files =>
          match forOf files with
          | .error e => ⟨s, o ++ [.changes], some e⟩
          | .ok fs =>
            ⟨s, o ++ [.changes] ++ (showFiles diffLines s (some data) fs).1,
              (showFiles diffLines s (some data) fs).2⟩

end Methods


/-! ## Runs of the program

Every command line (`add`, `commit`) is one call of a method on the state the
previous one left. -/

/-- A state-changing command with the values it takes from the environment: the
text of the added file, the time of the commit. -/
inductive Op where
  | add (path content : String)
  | commit (message timestamp : String)
  deriving DecidableEq, Repr

section Runs

variable (hash : String → String)

/-- Run one command. -/
def step (s : State) : Op → Result
  | .add p c => addFile hash s p c
  | .commit m t => commit hash s m t

/-- The state after a sequence of commands. -/
def runOps : State → List Op → State
  | s, [] => s
  | s, op :: ops => runOps (step hash s op).state ops

/-- The exceptions raised during a sequence of commands. -/
def runErrors : State → List Op → List JsError
  | _, [] => []
  | s, op :: ops => (step hash s op).err.toList ++ runErrors (step hash s op).state ops

/-- A commit record that `commit` wrote: its digest, its text, and the time and
message it was made with. -/
structure Made where
  digest : String
  text : String
  timestamp : String
  message : String
  deriving DecidableEq, Repr

/-- The commit records written during a sequence of commands, in the order they
were made. -/
def commitsMade : State → List Op → List Made
  | _, [] => []
  | s, .add p c :: ops => commitsMade (addFile hash s p c).state ops
  | s, .commit m t :: ops =>
    match commitText s m t, (commit hash s m t).err with
    | .ok text, none => ⟨hash text, text, t, m⟩ :: commitsMade (commit hash s m t).state ops
    | _, _ => commitsMade (commit hash s m t).state ops

/-- The contents handed to `hashObject` during a sequence of commands: the text
of every added file and of every commit record. -/
def hashedContents : State → List Op → List String
  | _, [] => []
  | s, .add p c :: ops => c :: hashedContents (addFile hash s p c).state ops
  | s, .commit m t :: ops =>
    match commitText s m t with
    | .ok text => text :: hashedContents (commit hash s m t).state ops
    | .error _ => hashedContents (commit hash s m t).state ops

end Runs

/-- The digest `HEAD` holds after the given commits (most recent first); the
empty text before the first commit. -/
def headAfter : List Made → String
  | [] => ""
  | m :: _ => m.digest

/-- What `log` prints for the given commits, in the given order. -/
def logLines : List Made → List Out
  | [] => []
  | m :: ms =>
    .logRule :: .logEntry (some (.str m.digest)) (some (.str m.timestamp)) (some (.str m.message))
      :: logLines ms

/-- What `showCommitDiff` prints for the files of a commit without parent: per
file its path, its content and the first-commit line. -/
def firstCommitLines : List (String × String) → List Out
  | [] => []
  | (p, c) :: fs => .file (some (.str p)) :: .content c :: .firstCommit :: firstCommitLines fs

/-- The `add` commands for a list of files (path, content). -/
def addOps (files : List (String × String)) : List Op :=
  files.map fun f => .add f.1 f.2

/-- The most recent `commit` command of a sequence: the commands before it, its
message and its time; `none` when the sequence has no `commit` command. -/
def lastCommit : List Op → Option (List Op × String × String)
  | [] => none
  | op :: ops =>
    match lastCommit ops with
    | some (before, m, t) => some (op :: before, m, t)
    | none =>
      match op with
      | .commit m t => some ([], m, t)
      | .add _ _ => none

/-- The messages and times of the `commit` commands of a sequence, in order. -/
def commitArgs : List Op → List (String × String)
  | [] => []
  | .add _ _ :: ops => commitArgs ops
  | .commit m t :: ops => (m, t) :: commitArgs ops

/-- The commits (most recent first) are linked: the digest of each is the hash of
its text, and its text parses to a record made with its message and time whose
parent is the digest of the next one (the empty text for the oldest). -/
def Linked (hash : String → String) : List Made → Prop
  | [] => True
  | m :: ms =>
    m.digest = hash m.text ∧
    (∃ index, jsonParse m.text =
      .ok (commitData index (.str (headAfter ms)) m.message m.timestamp)) ∧
    Linked hash ms

/-- Every one of the commits is stored under its digest. -/
def Stored (s : State) (made : List Made) : Prop :=
  ∀ m ∈ made, s.objects m.digest = some m.text

/-- A state as the program leaves it after the given commits (most recent first):
the index file holds a JSON array, `HEAD` holds the digest of the last commit,
and the commits are linked. -/
def Good (hash : String → String) (s : State) (made : List Made) : Prop :=
  (∃ text xs, s.index = some text ∧ jsonParse text = .ok (.arr xs)) ∧
  s.head = some (headAfter made) ∧ Linked hash made

/-! ## Well-formed JSON values

The values `JSON.parse` returns in this model: in every object the keys are
pairwise different and none is an index key. -/

mutual
/-- Every object inside the value has keys that `keysOk` accepts. -/
def Json.wf : Json → Bool
  | .arr xs => wfElems xs
  | .obj ms => keysOk ms && wfMembers ms
  | _ => true
/-- All values of a list are well formed. -/
def wfElems : List Json → Bool
  | [] => true
  | x :: xs => x.wf && wfElems xs
/-- All member values of a list are well formed. -/
def wfMembers : List (String × Json) → Bool
  | [] => true
  | (_, v) :: ms => v.wf && wfMembers ms
end

/-- The parts of an open array or object are well formed. -/
def Frame.wf : Frame → Bool
  | .arrF es => wfElems es
  | .objF ms => wfMembers ms
  | .objK ms _ => wfMembers ms

/-- The values a parser state holds are well formed. -/
def PState.wf : PState → Bool
  | .run st _ => st.all Frame.wf
  | .done v => v.wf

/-- What the parser does after a value has been read completely. -/
def afterValue (v : Json) (st : List Frame) (rest : List Tok) : Except JsError PState :=
  match deliver v st with
  | .ok p => parseRun p rest
  | .error e => .error e

/-- The parser reads the tokens of `v` back as `v`, wherever a value may stand. -/
def ReadsBack (v : Json) : Prop :=
  ∀ (st : List Frame) (e : Expect) (rest : List Tok), e = .val ∨ e = .valOrEnd →
    parseRun (.run st e) (v.toks ++ rest) = afterValue v st rest

/-! ## A concrete digest function

Used to instantiate the statements below on concrete inputs.  It is injective and
its values are plain file names, as SHA-1 hex digests are. -/

/-- Encoding of one character: `/`, NUL and `_` are written with a leading `_`. -/
def encChar (c : Char) : List Char :=
  if c = '/' then ['_', 's']
  else if c = '\x00' then ['_', 'z']
  else if c = '_' then ['_', '_']
  else [c]

/-- Encoding of a text. -/
def encChars : List Char → List Char
  | [] => []
  | c :: cs => encChar c ++ encChars cs

/-- Inverse of `encChars`. -/
def decChars : List Char → List Char
  | [] => []
  | [c] => [c]
  | c :: d :: cs =>
    if c = '_' then
      (if d = 's' then '/' else if d = 'z' then '\x00' else '_') :: decChars cs
    else c :: decChars (d :: cs)

/-- The letter `h` followed by the encoded content. -/
def toyHash (content : String) : String :=
  String.mk ('h' :: encChars content.data)

/-- A `diffLines` that reports the old text as removed and the new text as added. -/
def toyDiff (old new : String) : List DiffPart :=
  [⟨old, false, true⟩, ⟨new, true, false⟩]

/-! ## The scenarios of the specification -/

/-- First scenario: `a.txt` is added and committed. -/
def scenario1 : List Op :=
  [.add "a.txt" "hello\n", .commit "first" "2024-01-01T00:00:00.000Z"]

/-- The commit record the first scenario writes. -/
def scenario1Text : String :=
  jsonStringify (commitData (.arr [stagingEntry "a.txt" (toyHash "hello\n")]) (.str "")
    "first" "2024-01-01T00:00:00.000Z")

/-- The commands of the first scenario before its commit. -/
def beforeFirst : List Op :=
  [.add "a.txt" "hello\n"]

/-- The commands of the second scenario before its second commit. -/
def beforeSecond : List Op :=
  scenario1 ++ [.add "a.txt" "hello\nworld\n"]

/-- Second scenario: `a.txt` is modified, added and committed. -/
def scenario2 : List Op :=
  scenario1 ++ [.add "a.txt" "hello\nworld\n", .commit "second" "2024-01-02T00:00:00.000Z"]

/-- Third scenario: `b.txt` is added and committed. -/
def scenario3 : List Op :=
  scenario2 ++ [.add "b.txt" "new\n", .commit "third" "2024-01-03T00:00:00.000Z"]


/-! ## Theorems: `JSON.parse` inverts `JSON.stringify` -/




theorem hex_roundtrip : ∀ n : Fin 32,
    hexVal (hexDigit (n.val / 16)) = some (n.val / 16) ∧
    hexVal (hexDigit (n.val % 16)) = some (n.val % 16) := by decide

theorem lexRun_escChar (c : Char) (acc : List Char) (toks : List Tok) (rest : List Char) :
    lexRun ⟨toks, .inStr acc⟩ (escChar c ++ rest) = lexRun ⟨toks, .inStr (c :: acc)⟩ rest := by
  unfold escChar
  split_ifs with h1 h2 h3 h4 h5 h6 h7 h8
  · subst h1; simp [lexRun, lexStep]
  · subst h2; simp [lexRun, lexStep]
  · subst h3; simp [lexRun, lexStep]
  · subst h4; simp [lexRun, lexStep]
  · subst h5; simp [lexRun, lexStep]
  · subst h6; simp [lexRun, lexStep]
  · subst h7; simp [lexRun, lexStep]
  · obtain ⟨ha, hb⟩ := hex_roundtrip ⟨c.toNat, h8⟩
    simp only [] at ha hb
    have hc : Char.ofNat c.toNat = c := Char.ofNat_toNat c
    have hn : 16 * (c.toNat / 16) + c.toNat % 16 = c.toNat := Nat.div_add_mod _ _
    have h0 : hexVal '0' = some 0 := by decide
    have hs : ¬(55296 ≤ c.toNat ∧ c.toNat ≤ 57343) := by omega
    simp [lexRun, lexStep, ha, hb, h0, hn, hc, hs]
  · simp [lexRun, lexStep, h1, h2, h8]


theorem lexRun_escChars (s acc : List Char) (toks : List Tok) (rest : List Char) :
    lexRun ⟨toks, .inStr acc⟩ (escChars s ++ '"' :: rest) =
      lexRun ⟨.str (String.mk (acc.reverse ++ s)) :: toks, .normal⟩ rest := by
  induction s generalizing acc with
  | nil => simp [escChars, lexRun, lexStep]
  | cons c s ih =>
    rw [escChars, List.append_assoc, lexRun_escChar, ih]
    simp

theorem lexRun_renderTok (t : Tok) (toks : List Tok) (rest : List Char) :
    lexRun ⟨toks, .normal⟩ (renderTok t ++ rest) = lexRun ⟨t :: toks, .normal⟩ rest := by
  cases t with
  | str s =>
    have h := lexRun_escChars s.data [] toks rest
    simp only [List.reverse_nil, List.nil_append] at h
    simp [renderTok, lexRun, lexStep, isWs, h]
  | _ => simp [renderTok, lexRun, lexStep, isWs]

theorem lexRun_render (ts toks : List Tok) (rest : List Char) :
    lexRun ⟨toks, .normal⟩ (render ts ++ rest) = lexRun ⟨ts.reverse ++ toks, .normal⟩ rest := by
  induction ts generalizing toks with
  | nil => simp [render]
  | cons t ts ih =>
    rw [render, List.append_assoc, lexRun_renderTok, ih]
    simp

theorem lex_render (ts : List Tok) : lex (render ts) = .ok ts := by
  have h := lexRun_render ts [] []
  simp only [List.append_nil] at h
  simp [lex, h, lexRun]


theorem readsBack_null : ReadsBack .null := by
  intro st e rest he
  simp [Json.toks, parseRun, parseStep, he, afterValue]

theorem readsBack_bool (b : Bool) : ReadsBack (.bool b) := by
  intro st e rest he
  cases b <;> simp [Json.toks, parseRun, parseStep, he, afterValue]

theorem readsBack_str (s : String) : ReadsBack (.str s) := by
  intro st e rest he
  simp [Json.toks, parseRun, parseStep, he, afterValue]

theorem parseRun_elems (st : List Frame) (rest : List Tok) (xs : List Json)
    (h : ∀ x ∈ xs, ReadsBack x) (done : List Json) (e : Expect)
    (he : e = .val ∨ e = .valOrEnd) (hne : xs = [] → e = .valOrEnd) :
    parseRun (.run (.arrF done :: st) e) (elemToks xs ++ .rbrack :: rest) =
      afterValue (.arr (done ++ xs)) st rest := by
  induction xs generalizing done e with
  | nil =>
    simp [elemToks, parseRun, parseStep, hne rfl, afterValue]
  | cons x xs ih =>
    have hx : ReadsBack x := h x (List.mem_cons_self _ _)
    cases xs with
    | nil =>
      rw [elemToks, hx _ _ _ he]
      simp [afterValue, deliver, parseRun, parseStep]
    | cons y r =>
      rw [elemToks, List.append_assoc, hx _ _ _ he]
      have := ih (fun z hz => h z (List.mem_cons_of_mem _ hz)) (done ++ [x]) .val (Or.inl rfl)
        (fun hh => by simp at hh)
      simp [afterValue, deliver, parseRun, parseStep] at this ⊢
      exact this

theorem readsBack_arr (xs : List Json) (h : ∀ x ∈ xs, ReadsBack x) : ReadsBack (.arr xs) := by
  intro st e rest he
  have := parseRun_elems st rest xs h [] .valOrEnd (Or.inr rfl) (fun _ => rfl)
  simp [Json.toks, parseRun, parseStep, he] at this ⊢
  exact this

theorem parseRun_members (st : List Frame) (rest : List Tok) (ms : List (String × Json))
    (h : ∀ m ∈ ms, ReadsBack m.2) (done : List (String × Json)) (e : Expect)
    (he : e = .key ∨ e = .keyOrEnd) (hne : ms = [] → e = .keyOrEnd)
    (hk : keysOk (done ++ ms) = true) :
    parseRun (.run (.objF done :: st) e) (memberToks ms ++ .rbrace :: rest) =
      afterValue (.obj (done ++ ms)) st rest := by
  induction ms generalizing done e with
  | nil =>
    simp at hk
    simp [memberToks, parseRun, parseStep, hne rfl, afterValue, hk]
  | cons m ms ih =>
    obtain ⟨k, v⟩ := m
    have hx : ReadsBack v := h (k, v) (List.mem_cons_self _ _)
    have hkey : ¬ (e = .val ∨ e = .valOrEnd) := by
      rcases he with he | he <;> simp [he]
    cases ms with
    | nil =>
      simp only [memberToks, List.cons_append, parseRun, parseStep, hkey, he, if_true, if_false,
        List.append_eq]
      rw [hx _ _ _ (Or.inl rfl)]
      simp [afterValue, deliver, parseRun, parseStep, hk]
    | cons y r =>
      simp only [memberToks, List.cons_append, parseRun, parseStep, hkey, he, if_true, if_false,
        List.append_eq, List.append_assoc]
      rw [hx _ _ _ (Or.inl rfl)]
      have := ih (fun z hz => h z (List.mem_cons_of_mem _ hz)) (done ++ [(k, v)]) .key (Or.inl rfl)
        (fun hh => by simp at hh) (by simpa using hk)
      simp [afterValue, deliver, parseRun, parseStep] at this ⊢
      exact this

theorem readsBack_obj (ms : List (String × Json)) (h : ∀ m ∈ ms, ReadsBack m.2)
    (hk : keysOk ms = true) : ReadsBack (.obj ms) := by
  intro st e rest he
  have := parseRun_members st rest ms h [] .keyOrEnd (Or.inr rfl) (fun _ => rfl) (by simpa using hk)
  simp [Json.toks, parseRun, parseStep, he] at this ⊢
  exact this

/-- A value that `JSON.parse` reads back from its own `JSON.stringify` text. -/
theorem jsonParse_stringify (v : Json) (h : ReadsBack v) :
    jsonParse (jsonStringify v) = .ok v := by
  have := h [] .val [] (Or.inl rfl)
  simp only [List.append_nil] at this
  simp [jsonParse, jsonStringify, lex_render, parseToks, this, afterValue, deliver, parseRun]


mutual
theorem readsBack_of_wf : (v : Json) → v.wf = true → ReadsBack v
  | .null, _ => readsBack_null
  | .bool b, _ => readsBack_bool b
  | .str s, _ => readsBack_str s
  | .arr xs, h => readsBack_arr xs (readsBack_elems xs (by simpa [Json.wf] using h))
  | .obj ms, h => by
    simp [Json.wf] at h
    exact readsBack_obj ms (readsBack_members ms h.2) h.1
theorem readsBack_elems : (xs : List Json) → wfElems xs = true → ∀ x ∈ xs, ReadsBack x
  | [], _ => by simp
  | x :: xs, h => by
    simp [wfElems] at h
    intro y hy
    rcases List.mem_cons.1 hy with rfl | hy
    · exact readsBack_of_wf _ h.1
    · exact readsBack_elems xs h.2 y hy
theorem readsBack_members : (ms : List (String × Json)) → wfMembers ms = true →
    ∀ m ∈ ms, ReadsBack m.2
  | [], _ => by simp
  | (k, v) :: ms, h => by
    simp [wfMembers] at h
    intro y hy
    rcases List.mem_cons.1 hy with rfl | hy
    · exact readsBack_of_wf _ h.1
    · exact readsBack_members ms h.2 y hy
end

/-- The value `JSON.parse(JSON.stringify(v))` is `v` for every well-formed value. -/
theorem jsonParse_stringify_wf (v : Json) (h : v.wf = true) :
    jsonParse (jsonStringify v) = .ok v :=
  jsonParse_stringify v (readsBack_of_wf v h)

/-! ### `JSON.parse` returns well-formed values -/

theorem wfElems_append (a b : List Json) : wfElems (a ++ b) = (wfElems a && wfElems b) := by
  induction a with
  | nil => simp [wfElems]
  | cons x a ih => simp [wfElems, ih, Bool.and_assoc]

theorem wfMembers_append (a b : List (String × Json)) :
    wfMembers (a ++ b) = (wfMembers a && wfMembers b) := by
  induction a with
  | nil => simp [wfMembers]
  | cons x a ih =>
    obtain ⟨k, v⟩ := x
    simp [wfMembers, ih, Bool.and_assoc]

theorem deliver_wf (v : Json) (st : List Frame) (p : PState) (hv : v.wf = true)
    (hst : st.all Frame.wf = true) (h : deliver v st = .ok p) : p.wf = true := by
  cases st with
  | nil =>
    simp [deliver] at h
    subst h
    simpa [PState.wf] using hv
  | cons f st =>
    cases f with
    | arrF es =>
      simp [deliver] at h
      subst h
      simp only [List.all_cons, Bool.and_eq_true] at hst
      have h1 : wfElems es = true := hst.1
      simp only [PState.wf, List.all_cons, Bool.and_eq_true]
      exact ⟨by simp [Frame.wf, wfElems_append, wfElems, h1, hv], hst.2⟩
    | objF ms => simp [deliver] at h
    | objK ms k =>
      simp [deliver] at h
      subst h
      simp only [List.all_cons, Bool.and_eq_true] at hst
      have h1 : wfMembers ms = true := hst.1
      simp only [PState.wf, List.all_cons, Bool.and_eq_true]
      exact ⟨by simp [Frame.wf, wfMembers_append, wfMembers, h1, hv], hst.2⟩

theorem parseStep_wf (p p' : PState) (t : Tok) (hp : p.wf = true)
    (h : parseStep p t = .ok p') : p'.wf = true := by
  cases p with
  | done v => simp [parseStep] at h
  | run st e =>
    simp only [PState.wf] at hp
    cases t with
    | tNull =>
      simp only [parseStep] at h
      split_ifs at h
      exact deliver_wf _ _ _ (by simp [Json.wf]) hp h
    | tTrue =>
      simp only [parseStep] at h
      split_ifs at h
      exact deliver_wf _ _ _ (by simp [Json.wf]) hp h
    | tFalse =>
      simp only [parseStep] at h
      split_ifs at h
      exact deliver_wf _ _ _ (by simp [Json.wf]) hp h
    | str s =>
      simp only [parseStep] at h
      split_ifs at h
      · exact deliver_wf _ _ _ (by simp [Json.wf]) hp h
      · split at h
        · simp at h
          subst h
          simpa [PState.wf, Frame.wf] using hp
        · simp at h
    | lbrack =>
      simp only [parseStep] at h
      split_ifs at h
      simp at h
      subst h
      simpa [PState.wf, Frame.wf, wfElems] using hp
    | lbrace =>
      simp only [parseStep] at h
      split_ifs at h
      simp at h
      subst h
      simpa [PState.wf, Frame.wf, wfMembers] using hp
    | rbrack =>
      simp only [parseStep] at h
      split_ifs at h
      split at h
      · simp only [List.all_cons, Bool.and_eq_true] at hp
        exact deliver_wf _ _ _ (by simpa [Json.wf, Frame.wf] using hp.1) hp.2 h
      · simp at h
    | rbrace =>
      simp only [parseStep] at h
      split_ifs at h
      split at h
      · split_ifs at h with hk
        simp only [List.all_cons, Bool.and_eq_true] at hp
        have h1 : wfMembers _ = true := hp.1
        exact deliver_wf _ _ _ (by simp [Json.wf, hk, h1]) hp.2 h
      · simp at h
    | comma =>
      simp only [parseStep] at h
      split_ifs at h
      split at h
      · simp at h
        subst h
        simpa [PState.wf] using hp
      · simp at h
        subst h
        simpa [PState.wf] using hp
      · simp at h
    | colon =>
      simp only [parseStep] at h
      split_ifs at h
      split at h
      · simp at h
        subst h
        simpa [PState.wf] using hp
      · simp at h

theorem parseRun_wf (ts : List Tok) (p p' : PState) (hp : p.wf = true)
    (h : parseRun p ts = .ok p') : p'.wf = true := by
  induction ts generalizing p with
  | nil =>
    simp [parseRun] at h
    subst h
    exact hp
  | cons t ts ih =>
    simp only [parseRun] at h
    split at h
    · next q hq => exact ih q (parseStep_wf p q t hp hq) h
    · simp at h

/-- Every value `JSON.parse` returns is well formed. -/
theorem jsonParse_wf (text : String) (v : Json) (h : jsonParse text = .ok v) : v.wf = true := by
  simp only [jsonParse] at h
  split at h
  · next ts _ =>
    simp only [parseToks] at h
    split at h
    · next w hw =>
      simp at h
      subst h
      simpa [PState.wf] using parseRun_wf ts _ _ (by simp [PState.wf]) hw
    · simp at h
    · simp at h
  · simp at h

/-- Writing a parsed value and parsing the text again gives the value back. -/
theorem jsonParse_stringify_parsed (text : String) (v : Json) (h : jsonParse text = .ok v) :
    jsonParse (jsonStringify v) = .ok v :=
  jsonParse_stringify_wf v (jsonParse_wf text v h)

/-! ## The concrete digest function -/

theorem decChars_encChars (cs : List Char) : decChars (encChars cs) = cs := by
  induction cs with
  | nil => rfl
  | cons c cs ih =>
    unfold encChars encChar
    split_ifs with h1 h2 h3
    · subst h1; simp [decChars, ih]
    · subst h2; simp [decChars, ih]
    · subst h3; simp [decChars, ih]
    · cases hcs : encChars cs with
      | nil =>
        rw [hcs] at ih
        simp [decChars] at ih ⊢
        exact ih
      | cons d ds =>
        rw [hcs] at ih
        simp [decChars, h3, ih]

theorem toyHash_injective (a b : String) (h : toyHash a = toyHash b) : a = b := by
  have h1 := congrArg String.data h
  simp only [toyHash, List.cons.injEq, true_and] at h1
  have := congrArg decChars h1
  rw [decChars_encChars, decChars_encChars] at this
  exact String.ext this

theorem encChars_plain (cs : List Char) :
    '/' ∉ encChars cs ∧ '\x00' ∉ encChars cs := by
  induction cs with
  | nil => simp [encChars]
  | cons c cs ih =>
    unfold encChars encChar
    split_ifs with h1 h2 h3
    · simpa using ih
    · simpa using ih
    · simpa using ih
    · simp only [List.singleton_append, List.mem_cons, not_or]
      exact ⟨⟨fun h => h1 h.symm, ih.1⟩, ⟨fun h => h2 h.symm, ih.2⟩⟩

theorem toyHash_plain (c : String) : plainName (toyHash c) = true := by
  have h := encChars_plain c.data
  have h1 : toyHash c ≠ "" := by
    intro hh; have := congrArg String.data hh; simp [toyHash] at this
  have h2 : toyHash c ≠ "." := by
    intro hh; have := congrArg String.data hh; simp [toyHash] at this
  have h3 : toyHash c ≠ ".." := by
    intro hh; have := congrArg String.data hh; simp [toyHash] at this
  simp [plainName, h1, h2, h3]
  simp [toyHash]
  exact h

/-! ## Facts about the methods -/

section MethodFacts

variable (hash : String → String) (diffLines : String → String → List DiffPart)

theorem stagingEntry_wf (p h : String) : (stagingEntry p h).wf = true := by
  have hk : keysOk [("path", Json.str p), ("hash", Json.str h)] = true := by
    simp [keysOk, isIndexKey]
  simp [stagingEntry, Json.wf, wfMembers, hk]

theorem getCurrentHead_wf (s : State) : (getCurrentHead s).wf = true := by
  unfold getCurrentHead
  split <;> simp [Json.wf]

theorem commitData_wf (index parent : Json) (m t : String) (hi : index.wf = true)
    (hp : parent.wf = true) : (commitData index parent m t).wf = true := by
  have hk : keysOk [("timestamp", Json.str t), ("message", Json.str m), ("files", index),
      ("parent", parent)] = true := by
    simp [keysOk, isIndexKey]
  simp [commitData, Json.wf, wfMembers, hk, hi, hp]

theorem getProp_commitData (index parent : Json) (m t : String) :
    getProp (some (commitData index parent m t)) "timestamp" = .ok (some (.str t)) ∧
    getProp (some (commitData index parent m t)) "message" = .ok (some (.str m)) ∧
    getProp (some (commitData index parent m t)) "files" = .ok (some index) ∧
    getProp (some (commitData index parent m t)) "parent" = .ok (some parent) := by
  refine ⟨?_, ?_, ?_, ?_⟩ <;> simp [getProp, commitData, List.lookup]


theorem readObject_writeObject (s s1 : State) (name content : String)
    (h : writeObject s name content = .ok s1) : readObject s1 name = .ok content := by
  unfold writeObject at h
  split_ifs at h with hp
  simp at h
  subst h
  simp [readObject, hp]

theorem writeObject_plain (s : State) (name content : String) (hp : plainName name = true) :
    writeObject s name content =
      .ok { s with objects := fun k => if k = name then some content else s.objects k } := by
  simp [writeObject, hp]

theorem updateStagingArea_ok (s : State) (text : String) (xs : List Json) (p h : String)
    (hidx : s.index = some text) (hparse : jsonParse text = .ok (.arr xs)) :
    updateStagingArea s p h =
      .ok { s with index := some (jsonStringify (.arr (xs ++ [stagingEntry p h]))) } := by
  simp [updateStagingArea, hidx, hparse]

theorem updateStagingArea_inv (s s' : State) (p h : String)
    (hok : updateStagingArea s p h = .ok s') :
    ∃ text xs, s.index = some text ∧ jsonParse text = .ok (.arr xs) := by
  unfold updateStagingArea at hok
  split at hok
  · simp at hok
  · next text hidx =>
    split at hok
    · simp at hok
    · next xs hp => exact ⟨text, xs, hidx, hp⟩
    · simp at hok

/-- The index text written by `updateStagingArea` parses to the extended array. -/
theorem jsonParse_index_push (text : String) (xs : List Json) (p h : String)
    (hparse : jsonParse text = .ok (.arr xs)) :
    jsonParse (jsonStringify (.arr (xs ++ [stagingEntry p h]))) =
      .ok (.arr (xs ++ [stagingEntry p h])) := by
  apply jsonParse_stringify_wf
  have hw := jsonParse_wf text _ hparse
  simp only [Json.wf] at hw
  have he := stagingEntry_wf p h
  have h1 : wfElems [stagingEntry p h] = true := by
    rw [wfElems, he]; rfl
  rw [Json.wf, wfElems_append, hw, h1]; rfl

theorem jsonParse_empty_index : jsonParse (jsonStringify (.arr [])) = .ok (.arr []) :=
  jsonParse_stringify_wf _ (by simp [Json.wf, wfElems])

/-- Run of `addFile` on a state whose index file holds a JSON array. -/
theorem addFile_ok (s : State) (text : String) (xs : List Json) (p c : String)
    (hp : plainName (hash c) = true)
    (hidx : s.index = some text) (hparse : jsonParse text = .ok (.arr xs)) :
    addFile hash s p c =
      ⟨{ objects := fun k => if k = hash c then some c else s.objects k
         head := s.head
         index := some (jsonStringify (.arr (xs ++ [stagingEntry p (hash c)]))) },
        [.hashLine (hash c), .added p], none⟩ := by
  have h2 := updateStagingArea_ok
    { s with objects := fun k => if k = hash c then some c else s.objects k } text xs p (hash c)
    hidx hparse
  simp only [addFile, writeObject_plain _ _ _ hp, h2]

/-- When `addFile` returns, the index file held a JSON array. -/
theorem addFile_inv (s : State) (p c : String) (h : (addFile hash s p c).err = none) :
    plainName (hash c) = true ∧ ∃ text xs, s.index = some text ∧ jsonParse text = .ok (.arr xs) := by
  unfold addFile at h
  simp only at h
  split at h
  · simp at h
  · next s1 hw =>
    split at h
    · simp at h
    · next s2 hu =>
      have hpl : plainName (hash c) = true := by
        unfold writeObject at hw
        split_ifs at hw with hh
        exact hh
      rw [writeObject_plain _ _ _ hpl] at hw
      simp at hw
      subst hw
      exact ⟨hpl, updateStagingArea_inv
        { s with objects := fun k => if k = hash c then some c else s.objects k } _ _ _ hu⟩

/-- Run of `commit` on a state whose index file holds JSON text. -/
theorem commit_ok (s : State) (text : String) (index : Json) (m t : String)
    (hp : plainName (hash (jsonStringify (commitData index (getCurrentHead s) m t))) = true)
    (hidx : s.index = some text) (hparse : jsonParse text = .ok index) :
    commitText s m t = .ok (jsonStringify (commitData index (getCurrentHead s) m t)) ∧
    commit hash s m t =
      ⟨{ objects := fun k =>
            if k = hash (jsonStringify (commitData index (getCurrentHead s) m t))
            then some (jsonStringify (commitData index (getCurrentHead s) m t)) else s.objects k
         head := some (hash (jsonStringify (commitData index (getCurrentHead s) m t)))
         index := some (jsonStringify (.arr [])) },
        [.committed (hash (jsonStringify (commitData index (getCurrentHead s) m t)))], none⟩ := by
  have h1 : commitText s m t = .ok (jsonStringify (commitData index (getCurrentHead s) m t)) := by
    simp [commitText, hidx, hparse]
  refine ⟨h1, ?_⟩
  simp only [commit, h1, writeObject_plain _ _ _ hp]

/-- When `commit` returns, the index file held JSON text. -/
theorem commit_inv (s : State) (m t : String) (h : (commit hash s m t).err = none) :
    ∃ text index, s.index = some text ∧ jsonParse text = .ok index := by
  unfold commit at h
  split at h
  · simp at h
  · next rec hc =>
    unfold commitText at hc
    split at hc
    · simp at hc
    · next text hidx =>
      split at hc
      · simp at hc
      · next index hp => exact ⟨text, index, hidx, hp⟩

/-- The text of a commit record parses to the record. -/
theorem jsonParse_commitData (s : State) (text : String) (index : Json) (m t : String)
    (hparse : jsonParse text = .ok index) :
    jsonParse (jsonStringify (commitData index (getCurrentHead s) m t)) =
      .ok (commitData index (getCurrentHead s) m t) :=
  jsonParse_stringify_wf _
    (commitData_wf _ _ _ _ (jsonParse_wf text _ hparse) (getCurrentHead_wf s))

end MethodFacts

/-! ## Claims about `addFile` and `commit` -/

section Claims

variable (hash : String → String) (diffLines : String → String → List DiffPart)

/-- What `commit` leaves behind on a state whose index file holds JSON text. -/
theorem commit_spec (hplain : ∀ c, plainName (hash c) = true) (s : State) (text : String)
    (index : Json) (m t : String) (hidx : s.index = some text)
    (hparse : jsonParse text = .ok index) :
    (commit hash s m t).err = none ∧
    (commit hash s m t).out =
      [.committed (hash (jsonStringify (commitData index (getCurrentHead s) m t)))] ∧
    commitText s m t = .ok (jsonStringify (commitData index (getCurrentHead s) m t)) ∧
    (commit hash s m t).state.head =
      some (hash (jsonStringify (commitData index (getCurrentHead s) m t))) ∧
    (commit hash s m t).state.objects =
      (fun k => if k = hash (jsonStringify (commitData index (getCurrentHead s) m t))
        then some (jsonStringify (commitData index (getCurrentHead s) m t)) else s.objects k) ∧
    (commit hash s m t).state.index = some (jsonStringify (.arr [])) ∧
    jsonParse (jsonStringify (commitData index (getCurrentHead s) m t)) =
      .ok (commitData index (getCurrentHead s) m t) := by
  obtain ⟨h1, h2⟩ := commit_ok hash s text index m t (hplain _) hidx hparse
  rw [h2]
  exact ⟨rfl, rfl, h1, rfl, rfl, rfl, jsonParse_commitData s text index m t hparse⟩

/-- The members of the object `addFile` appends to the index. -/
theorem getProp_stagingEntry (p h : String) :
    getProp (some (stagingEntry p h)) "path" = .ok (some (.str p)) ∧
    getProp (some (stagingEntry p h)) "hash" = .ok (some (.str h)) := by
  constructor <;> simp [getProp, stagingEntry, List.lookup]

/-- C1. After `addFile(path)` of a file with content `c` and then `commit(msg)`, the
record stored under the new `HEAD` parses to a commit whose `files` list has as
last element an entry whose `path` is the path and whose `hash` is
`hashObject(c)`, and the index file holds the empty array.  `addFile` returns
whenever the index file holds a JSON array, and once it has returned `commit`
returns too. -/
theorem addFile_commit_records_entry (hplain : ∀ c, plainName (hash c) = true)
    (s : State) (path c msg ts : String) :
    ((∃ text xs, s.index = some text ∧ jsonParse text = .ok (.arr xs)) →
      (addFile hash s path c).err = none) ∧
    ((addFile hash s path c).err = none →
      (commit hash (addFile hash s path c).state msg ts).err = none ∧
      ∃ h record data files entry,
        (commit hash (addFile hash s path c).state msg ts).state.head = some h ∧
        (commit hash (addFile hash s path c).state msg ts).state.objects h = some record ∧
        jsonParse record = .ok data ∧
        getProp (some data) "files" = .ok (some (.arr files)) ∧
        entry ∈ files ∧
        files.getLast? = some entry ∧
        getProp (some entry) "path" = .ok (some (.str path)) ∧
        getProp (some entry) "hash" = .ok (some (.str (hash c))) ∧
        ∃ indexText,
          (commit hash (addFile hash s path c).state msg ts).state.index = some indexText ∧
          jsonParse indexText = .ok (.arr [])) := by
  constructor
  · rintro ⟨text, xs, hidx, hparse⟩
    rw [addFile_ok hash s text xs path c (hplain c) hidx hparse]
  · intro hadd
    obtain ⟨_, text, xs, hidx, hparse⟩ := addFile_inv hash s path c hadd
    rw [addFile_ok hash s text xs path c (hplain c) hidx hparse]
    have hpush := jsonParse_index_push text xs path (hash c) hparse
    obtain ⟨h1, _, _, h4, h5, h6, h7⟩ := commit_spec hash hplain
      { objects := fun k => if k = hash c then some c else s.objects k
        head := s.head
        index := some (jsonStringify (.arr (xs ++ [stagingEntry path (hash c)]))) }
      _ _ msg ts rfl hpush
    refine ⟨h1, _, _, _, xs ++ [stagingEntry path (hash c)], stagingEntry path (hash c), h4, ?_,
      h7, (getProp_commitData _ _ _ _).2.2.1, by simp, by simp,
      (getProp_stagingEntry path (hash c)).1, (getProp_stagingEntry path (hash c)).2,
      _, h6, jsonParse_empty_index⟩
    rw [h5]
    simp

/-- C1 on the freshly initialised repository with `a.txt` holding `hello`. -/
theorem addFile_commit_records_entry_witness :
    ((∃ text xs, fresh.index = some text ∧ jsonParse text = .ok (.arr xs)) →
      (addFile toyHash fresh "a.txt" "hello\n").err = none) ∧
    ((addFile toyHash fresh "a.txt" "hello\n").err = none →
      (commit toyHash (addFile toyHash fresh "a.txt" "hello\n").state "first" "t").err = none ∧
      ∃ h record data files entry,
        (commit toyHash (addFile toyHash fresh "a.txt" "hello\n").state "first" "t").state.head
          = some h ∧
        (commit toyHash (addFile toyHash fresh "a.txt" "hello\n").state "first" "t").state.objects h
          = some record ∧
        jsonParse record = .ok data ∧
        getProp (some data) "files" = .ok (some (.arr files)) ∧
        entry ∈ files ∧
        files.getLast? = some entry ∧
        getProp (some entry) "path" = .ok (some (.str "a.txt")) ∧
        getProp (some entry) "hash" = .ok (some (.str (toyHash "hello\n"))) ∧
        ∃ indexText,
          (commit toyHash (addFile toyHash fresh "a.txt" "hello\n").state "first" "t").state.index
            = some indexText ∧
          jsonParse indexText = .ok (.arr [])) :=
  addFile_commit_records_entry toyHash toyHash_plain fresh "a.txt" "hello\n" "first" "t"

/-- C2. When `HEAD` holds `H`, `commit(msg)` leaves `HEAD` equal to `hashObject` of the
serialized new record, stores exactly that text under that digest, and the text
parses to a record whose `parent` is `H`.  `commit` returns whenever the index
file holds JSON text. -/
theorem commit_chains_to_head (hplain : ∀ c, plainName (hash c) = true)
    (s : State) (H msg ts : String) (hH : s.head = some H) :
    ((∃ text index, s.index = some text ∧ jsonParse text = .ok index) →
      (commit hash s msg ts).err = none) ∧
    ((commit hash s msg ts).err = none →
      ∃ record data,
        commitText s msg ts = .ok record ∧
        (commit hash s msg ts).state.head = some (hash record) ∧
        (commit hash s msg ts).state.objects (hash record) = some record ∧
        jsonParse record = .ok data ∧
        getProp (some data) "parent" = .ok (some (.str H))) := by
  have hcur : getCurrentHead s = .str H := by simp [getCurrentHead, hH]
  constructor
  · rintro ⟨text, index, hidx, hparse⟩
    rw [(commit_ok hash s text index msg ts (hplain _) hidx hparse).2]
  · intro hc
    obtain ⟨text, index, hidx, hparse⟩ := commit_inv hash s msg ts hc
    obtain ⟨_, _, h3, h4, h5, _, h7⟩ := commit_spec hash hplain s text index msg ts hidx hparse
    refine ⟨_, _, h3, h4, ?_, h7, ?_⟩
    · rw [h5]; simp
    · rw [hcur]
      exact (getProp_commitData _ _ _ _).2.2.2

/-- C2 on a repository whose `HEAD` holds `abc` and whose index is empty. -/
theorem commit_chains_to_head_witness :
    ((∃ text index, (State.mk (fun _ => none) (some "abc") (some "[]")).index = some text ∧
        jsonParse text = .ok index) →
      (commit toyHash ⟨fun _ => none, some "abc", some "[]"⟩ "m" "t").err = none) ∧
    ((commit toyHash ⟨fun _ => none, some "abc", some "[]"⟩ "m" "t").err = none →
      ∃ record data,
        commitText ⟨fun _ => none, some "abc", some "[]"⟩ "m" "t" = .ok record ∧
        (commit toyHash ⟨fun _ => none, some "abc", some "[]"⟩ "m" "t").state.head
          = some (toyHash record) ∧
        (commit toyHash ⟨fun _ => none, some "abc", some "[]"⟩ "m" "t").state.objects
          (toyHash record) = some record ∧
        jsonParse record = .ok data ∧
        getProp (some data) "parent" = .ok (some (.str "abc"))) :=
  commit_chains_to_head toyHash toyHash_plain ⟨fun _ => none, some "abc", some "[]"⟩
    "abc" "m" "t" rfl

/-- C4. After `addFile` has written content `c` under the digest `hashObject(c)`,
`getFileContent` of that digest returns exactly `c`. -/
theorem getFileContent_addFile (s : State) (path c : String)
    (hp : plainName (hash c) = true) :
    getFileContent (addFile hash s path c).state (some (.str (hash c))) = .ok c := by
  unfold addFile
  simp only [writeObject_plain _ _ _ hp]
  split
  · simp [getFileContent, readObject, hp]
  · next s2 hu =>
    unfold updateStagingArea at hu
    split at hu
    · simp at hu
    · split at hu
      · simp at hu
      · simp at hu
        subst hu
        simp [getFileContent, readObject, hp]
      · simp at hu

/-- C4 on an empty repository. -/
theorem getFileContent_addFile_witness :
    getFileContent (addFile toyHash fresh "a.txt" "hello\n").state
      (some (.str (toyHash "hello\n"))) = .ok "hello\n" :=
  getFileContent_addFile toyHash fresh "a.txt" "hello\n" (toyHash_plain _)

end Claims

/-! ## Content addressing -/

section Store

variable (hash : String → String) (diffLines : String → String → List DiffPart)

/-- Every write of a command stores a content under its own digest: afterwards a
key holds what it held before or a content whose digest is the key. -/
theorem step_objects (s : State) (op : Op) (k : String) :
    (step hash s op).state.objects k = s.objects k ∨
    ∃ c, (step hash s op).state.objects k = some c ∧ hash c = k := by
  cases op with
  | add p c =>
    simp only [step, addFile]
    unfold writeObject
    split_ifs with hp
    · have key : ∀ s2 : State,
          s2.objects = (fun k => if k = hash c then some c else s.objects k) →
          s2.objects k = s.objects k ∨ ∃ c, s2.objects k = some c ∧ hash c = k := by
        intro s2 h2
        rw [h2]
        by_cases hk : k = hash c
        · exact Or.inr ⟨c, by simp [hk], hk.symm⟩
        · exact Or.inl (by simp [hk])
      simp only
      split
      · exact key _ rfl
      · next s2 hu =>
        apply key
        unfold updateStagingArea at hu
        split at hu
        · simp at hu
        · split at hu
          · simp at hu
          · simp at hu
            subst hu
            rfl
          · simp at hu
    · exact Or.inl rfl
  | commit m t =>
    simp only [step, commit]
    split
    · exact Or.inl rfl
    · next text _ =>
      unfold writeObject
      split_ifs with hp
      · simp only
        by_cases hk : k = hash text
        · exact Or.inr ⟨text, by simp [hk], hk.symm⟩
        · exact Or.inl (by simp [hk])
      · exact Or.inl rfl

/-- Content addressing holds after any sequence of commands once it holds before. -/
theorem runOps_addressed (ops : List Op) (s : State)
    (h : ∀ k c, s.objects k = some c → hash c = k) :
    ∀ k c, (runOps hash s ops).objects k = some c → hash c = k := by
  induction ops generalizing s with
  | nil => exact h
  | cons op ops ih =>
    apply ih
    intro k c hk
    rcases step_objects hash s op k with h1 | ⟨c', h1, h2⟩
    · exact h k c (h1 ▸ hk)
    · rw [h1] at hk
      cases hk
      exact h2

/-- C6. In every state reached from a freshly initialised repository by `add` and
`commit`, every object stored under a key has content whose `hashObject` is that
key; hence a further command leaves under each key a content of the same
digest. -/
theorem objects_content_addressed (ops : List Op) :
    (∀ k c, (runOps hash fresh ops).objects k = some c → hash c = k) ∧
    (∀ op k c, (runOps hash fresh ops).objects k = some c →
      ∃ c', (step hash (runOps hash fresh ops) op).state.objects k = some c' ∧
        hash c' = hash c) := by
  have h0 : ∀ k c, (runOps hash fresh ops).objects k = some c → hash c = k :=
    runOps_addressed hash ops fresh (by intro k c h; simp [fresh, init, noRepo] at h)
  refine ⟨h0, ?_⟩
  intro op k c hk
  rcases step_objects hash (runOps hash fresh ops) op k with h1 | ⟨c', h1, h2⟩
  · exact ⟨c, by rw [h1, hk], rfl⟩
  · exact ⟨c', h1, by rw [h2, h0 k c hk]⟩

end Store

/-! ## `showCommitDiff` on a digest that is not stored -/

/-- C10. For a digest that is not a key of the object store, `showCommitDiff` reports
that the commit was not found, prints no file content and no diff, and leaves
`objects`, `HEAD` and `index` as they were. -/
theorem showCommitDiff_not_found (diffLines : String → String → List DiffPart)
    (s : State) (digest : String) (hp : plainName digest = true)
    (hd : s.objects digest = none) :
    showCommitDiff diffLines s digest = ⟨s, [.couldNotRead, .notFound], none⟩ := by
  have h1 : getCommitData s digest = .ok (none, [.couldNotRead]) := by
    simp [getCommitData, readObject, hp, hd]
  have h2 : jsonParseArg none = .ok .null := by
    simp only [jsonParseArg, Option.getD]
    rfl
  simp [showCommitDiff, h1, h2, truthy]

/-- C10 on the freshly initialised repository. -/
theorem showCommitDiff_not_found_witness :
    showCommitDiff toyDiff fresh "42d889408f28482849e15f31d814187e340642ca" =
      ⟨fresh, [.couldNotRead, .notFound], none⟩ :=
  showCommitDiff_not_found toyDiff fresh "42d889408f28482849e15f31d814187e340642ca"
    (by decide) rfl

/-! ## Runs from a freshly initialised repository -/

section RunFacts

variable (hash : String → String) (diffLines : String → String → List DiffPart)

theorem fresh_good : Good hash fresh [] := by
  refine ⟨⟨_, [], rfl, jsonParse_empty_index⟩, rfl, trivial⟩

theorem linked_digest (made : List Made) (h : Linked hash made) :
    ∀ m ∈ made, m.digest = hash m.text := by
  induction made with
  | nil => simp
  | cons a made ih =>
    intro m hm
    rcases List.mem_cons.1 hm with rfl | hm
    · exact h.1
    · exact ih h.2.2 m hm

/-- One command on a good state: it returns, and the state it leaves is good for the
commits extended by the one it made. -/
theorem step_good (hplain : ∀ c, plainName (hash c) = true) (s : State) (made : List Made)
    (op : Op) (hg : Good hash s made) :
    (step hash s op).err = none ∧
    Good hash (step hash s op).state ((commitsMade hash s [op]).reverse ++ made) ∧
    (commitsMade hash s [op]).map (fun m => (m.message, m.timestamp)) = commitArgs [op] := by
  obtain ⟨⟨text, xs, hidx, hparse⟩, hhead, hl⟩ := hg
  cases op with
  | add p c =>
    simp only [step, commitsMade, commitArgs, List.reverse_nil, List.nil_append, List.map_nil]
    rw [addFile_ok hash s text xs p c (hplain c) hidx hparse]
    exact ⟨rfl, ⟨⟨_, _, rfl, jsonParse_index_push text xs p (hash c) hparse⟩, hhead, hl⟩, trivial⟩
  | commit m t =>
    obtain ⟨h1, _, h3, h4, _, h6, h7⟩ := commit_spec hash hplain s text _ m t hidx hparse
    have hcur : getCurrentHead s = .str (headAfter made) := by simp [getCurrentHead, hhead]
    simp only [step, commitsMade, commitArgs, h3, h1, List.reverse_cons, List.reverse_nil,
      List.nil_append, List.singleton_append, List.map_cons, List.map_nil]
    refine ⟨trivial, ⟨⟨_, [], h6, jsonParse_empty_index⟩, h4, rfl, ⟨.arr xs, ?_⟩, hl⟩, trivial⟩
    rw [hcur] at h7 ⊢
    exact h7

theorem commitsMade_cons (s : State) (op : Op) (ops : List Op) :
    commitsMade hash s (op :: ops) =
      commitsMade hash s [op] ++ commitsMade hash (step hash s op).state ops := by
  cases op with
  | add p c => simp [commitsMade, step]
  | commit m t =>
    simp only [commitsMade, step]
    split <;> simp

theorem hashedContents_cons (s : State) (op : Op) (ops : List Op) :
    hashedContents hash s (op :: ops) =
      hashedContents hash s [op] ++ hashedContents hash (step hash s op).state ops := by
  cases op with
  | add p c => simp [hashedContents, step]
  | commit m t =>
    simp only [hashedContents, step]
    split <;> simp

theorem commitArgs_cons (op : Op) (ops : List Op) :
    commitArgs (op :: ops) = commitArgs [op] ++ commitArgs ops := by
  cases op <;> simp [commitArgs]

/-- A sequence of commands on a good state: no command raises, the final state is
good, and one commit is made per `commit` command. -/
theorem run_good (hplain : ∀ c, plainName (hash c) = true) (ops : List Op) (s : State)
    (made : List Made) (hg : Good hash s made) :
    runErrors hash s ops = [] ∧
    Good hash (runOps hash s ops) ((commitsMade hash s ops).reverse ++ made) ∧
    (commitsMade hash s ops).map (fun m => (m.message, m.timestamp)) = commitArgs ops := by
  induction ops generalizing s made with
  | nil => exact ⟨rfl, hg, rfl⟩
  | cons op ops ih =>
    obtain ⟨h1, h2, h3⟩ := step_good hash hplain s made op hg
    obtain ⟨i1, i2, i3⟩ := ih _ _ h2
    rw [commitsMade_cons, commitArgs_cons]
    refine ⟨?_, ?_, ?_⟩
    · simp [runErrors, h1, i1]
    · simpa [runOps, List.reverse_append, List.append_assoc] using i2
    · simp [List.map_append, h3, i3]

/-- Every write of a command stores one of the contents it hashed under the digest
of that content. -/
theorem step_objects_mem (s : State) (op : Op) (k : String) :
    (step hash s op).state.objects k = s.objects k ∨
    ∃ c ∈ hashedContents hash s [op], (step hash s op).state.objects k = some c ∧ hash c = k := by
  cases op with
  | add p c =>
    simp only [step, addFile, hashedContents, List.mem_singleton, exists_eq_left]
    unfold writeObject
    split_ifs with hp
    · have key : ∀ s2 : State,
          s2.objects = (fun k => if k = hash c then some c else s.objects k) →
          s2.objects k = s.objects k ∨ (s2.objects k = some c ∧ hash c = k) := by
        intro s2 h2
        rw [h2]
        by_cases hk : k = hash c
        · exact Or.inr ⟨by simp [hk], hk.symm⟩
        · exact Or.inl (by simp [hk])
      simp only
      split
      · exact key _ rfl
      · next s2 hu =>
        apply key
        unfold updateStagingArea at hu
        split at hu
        · simp at hu
        · split at hu
          · simp at hu
          · simp at hu
            subst hu
            rfl
          · simp at hu
    · exact Or.inl rfl
  | commit m t =>
    cases hct : commitText s m t with
    | error e => simp [step, commit, hct]
    | ok text =>
      simp only [step, commit, hashedContents, hct, List.mem_singleton, exists_eq_left]
      unfold writeObject
      split_ifs with hp
      · simp only
        by_cases hk : k = hash text
        · exact Or.inr ⟨by simp [hk], hk.symm⟩
        · exact Or.inl (by simp [hk])
      · exact Or.inl rfl

/-- An object stays as it is through a sequence of commands when the hash separates
its content from the contents hashed by the commands. -/
theorem runOps_keeps (ops : List Op) (s : State) (c : String)
    (hc : s.objects (hash c) = some c)
    (hinj : ∀ x ∈ hashedContents hash s ops, hash x = hash c → x = c) :
    (runOps hash s ops).objects (hash c) = some c := by
  induction ops generalizing s with
  | nil => exact hc
  | cons op ops ih =>
    rw [hashedContents_cons] at hinj
    apply ih
    · rcases step_objects_mem hash s op (hash c) with h1 | ⟨x, hx, h1, h2⟩
      · rw [h1, hc]
      · rw [h1, hinj x (List.mem_append_left _ hx) h2]
    · intro x hx
      exact hinj x (List.mem_append_right _ hx)

end RunFacts

section LogFacts

variable (hash : String → String) (diffLines : String → String → List DiffPart)

theorem commitsMade_text_mem (s : State) (op : Op) :
    ∀ m ∈ commitsMade hash s [op], m.text ∈ hashedContents hash s [op] := by
  cases op with
  | add p c => simp [commitsMade]
  | commit m t =>
    cases hct : commitText s m t with
    | error e => simp [commitsMade, hct]
    | ok text =>
      simp only [commitsMade, hashedContents, hct]
      split
      · next h _ => cases h; simp
      · simp

/-- One command keeps the earlier commits stored and stores the one it makes, when
the hash separates the texts involved. -/
theorem step_stored (hplain : ∀ c, plainName (hash c) = true) (s : State) (made : List Made)
    (op : Op) (hg : Good hash s made) (hst : Stored s made)
    (hinj : ∀ a ∈ made.map Made.text, ∀ b ∈ hashedContents hash s [op],
      hash b = hash a → b = a) :
    Stored (step hash s op).state ((commitsMade hash s [op]).reverse ++ made) := by
  have hold : ∀ m ∈ made, (step hash s op).state.objects m.digest = some m.text := by
    intro m hm
    have hd := linked_digest hash made hg.2.2 m hm
    rcases step_objects_mem hash s op m.digest with h1 | ⟨c, hc, h1, h2⟩
    · rw [h1]; exact hst m hm
    · rw [h1, hinj m.text (List.mem_map_of_mem _ hm) c hc (by rw [h2, hd])]
  obtain ⟨⟨text, xs, hidx, hparse⟩, hhead, hl⟩ := hg
  cases op with
  | add p c =>
    simpa [commitsMade, Stored] using hold
  | commit m t =>
    obtain ⟨h1, _, h3, _, h5, _, _⟩ := commit_spec hash hplain s text _ m t hidx hparse
    intro x hx
    simp only [commitsMade, h3, h1, List.reverse_cons, List.reverse_nil, List.nil_append,
      List.singleton_append, List.mem_cons] at hx
    rcases hx with rfl | hx
    · simp only [step, h5]
      simp
    · exact hold x hx

/-- After a sequence of commands on a good state every commit made is stored under
its digest, when the hash separates the contents that were hashed. -/
theorem run_stored (hplain : ∀ c, plainName (hash c) = true) (ops : List Op) (s : State)
    (made : List Made) (hg : Good hash s made) (hst : Stored s made)
    (hinj : ∀ a ∈ made.map Made.text ++ hashedContents hash s ops,
      ∀ b ∈ made.map Made.text ++ hashedContents hash s ops, hash b = hash a → b = a) :
    Stored (runOps hash s ops) ((commitsMade hash s ops).reverse ++ made) := by
  induction ops generalizing s made with
  | nil => simpa [commitsMade, runOps] using hst
  | cons op ops ih =>
    rw [hashedContents_cons] at hinj
    have h2 := (step_good hash hplain s made op hg).2.1
    have h3 := step_stored hash hplain s made op hg hst (fun a ha b hb =>
      hinj a (by simp only [List.mem_append]; exact Or.inl ha)
        b (by simp only [List.mem_append]; exact Or.inr (Or.inl hb)))
    have hsub : ∀ a ∈ ((commitsMade hash s [op]).reverse ++ made).map Made.text ++
        hashedContents hash (step hash s op).state ops,
        a ∈ made.map Made.text ++
          (hashedContents hash s [op] ++ hashedContents hash (step hash s op).state ops) := by
      intro a ha
      simp only [List.mem_append, List.map_append, List.mem_map, List.mem_reverse] at ha ⊢
      rcases ha with (⟨m, hm, rfl⟩ | h) | h
      · exact Or.inr (Or.inl (commitsMade_text_mem hash s op m hm))
      · exact Or.inl h
      · exact Or.inr (Or.inr h)
    have := ih _ _ h2 h3 (fun a ha b hb => hinj a (hsub a ha) b (hsub b hb))
    rw [commitsMade_cons]
    simpa [runOps, List.reverse_append, List.append_assoc] using this

/-- Run of `log` on a state whose `HEAD` leads to the given commits, each stored under its
digest: it visits them from the most recent to the oldest and stops. -/
theorem logLoop_linked (hplain : ∀ c, plainName (hash c) = true) (s : State)
    (made : List Made) (hl : Linked hash made) (hst : Stored s made) (fuel : Nat)
    (out : List Out) (hfuel : made.length ≤ fuel) :
    logLoop s fuel (some (.str (headAfter made))) out = some ⟨s, out ++ logLines made, none⟩ := by
  induction made generalizing fuel out with
  | nil =>
    cases fuel <;> simp [logLoop, headAfter, truthy, logLines]
  | cons m made ih =>
    cases fuel with
    | zero => simp at hfuel
    | succ fuel =>
      obtain ⟨hd, ⟨index, hparse⟩, hl'⟩ := hl
      have hpl : plainName m.digest = true := hd ▸ hplain _
      have hne : m.digest ≠ "" := by
        intro h
        rw [h] at hpl
        simp [plainName] at hpl
      have hread : getFileContent s (some (.str m.digest)) = .ok m.text := by
        simp [getFileContent, readObject, hpl, hst m (List.mem_cons_self _ _)]
      obtain ⟨g1, g2, _, g4⟩ := getProp_commitData index (.str (headAfter made)) m.message
        m.timestamp
      have := ih hl' (fun x hx => hst x (List.mem_cons_of_mem _ hx)) fuel
        (out ++ [.logRule, .logEntry (some (.str m.digest)) (some (.str m.timestamp))
          (some (.str m.message))]) (by simpa using hfuel)
      have hh : headAfter (m :: made) = m.digest := rfl
      rw [hh]
      simp only [logLoop, truthy, hne, ne_eq, not_false_eq_true, decide_True,
        if_true, hread, hparse, logLines]
      rw [g1, g2, g4]
      simp only [this]
      simp

end LogFacts

/-! ## The commit chain -/

section ChainClaims

variable (hash : String → String) (diffLines : String → String → List DiffPart)

/-- C3. After any sequence of commands on a freshly initialised repository, when the
hash separates the contents that were hashed, `log` stops and prints exactly
the commits made, the most recent first; there is one per `commit` command,
with its message and time. -/
theorem log_visits_commits (hplain : ∀ c, plainName (hash c) = true) (ops : List Op)
    (hinj : Set.InjOn hash {c | c ∈ hashedContents hash fresh ops})
    (fuel : Nat) (hfuel : (commitArgs ops).length ≤ fuel) :
    log (runOps hash fresh ops) fuel =
      some ⟨runOps hash fresh ops, logLines (commitsMade hash fresh ops).reverse, none⟩ ∧
    (commitsMade hash fresh ops).map (fun m => (m.message, m.timestamp)) = commitArgs ops := by
  obtain ⟨_, hg, hargs⟩ := run_good hash hplain ops fresh [] (fresh_good hash)
  have hst := run_stored hash hplain ops fresh [] (fresh_good hash) (by simp [Stored])
    (fun a ha b hb hab => hinj (by simpa using hb) (by simpa using ha) hab)
  simp only [List.append_nil] at hg hst
  refine ⟨?_, hargs⟩
  have hlen : (commitsMade hash fresh ops).reverse.length ≤ fuel := by
    have := congrArg List.length hargs
    simp only [List.length_map] at this
    simpa [this] using hfuel
  have := logLoop_linked hash hplain _ _ hg.2.2 hst fuel [] hlen
  simp only [log, getCurrentHead, hg.2.1]
  simpa using this

/-- C3 on the third scenario of the specification: three commits, visited with three
rounds of the loop. -/
theorem log_visits_commits_witness :
    log (runOps toyHash fresh scenario3) 3 =
      some ⟨runOps toyHash fresh scenario3,
        logLines (commitsMade toyHash fresh scenario3).reverse, none⟩ ∧
    (commitsMade toyHash fresh scenario3).map (fun m => (m.message, m.timestamp)) =
      commitArgs scenario3 :=
  log_visits_commits toyHash toyHash_plain scenario3
    (fun a _ b _ h => toyHash_injective a b h) 3 (by decide)

end ChainClaims

/-! ## `showCommitDiff` -/

section ShowFacts

variable (hash : String → String) (diffLines : String → String → List DiffPart)

theorem jsonParse_promiseText : jsonParse promiseText = .error .syntaxError := rfl

/-- In a commit with a parent, the round of the loop for a file whose content can be
read ends in the `SyntaxError` of line 110, after the path and the content have
been printed. -/
theorem showFile_parent_raises (s : State) (data file path fileHash parent : JsVal)
    (content : String) (hpath : getProp file "path" = .ok path)
    (hhash : getProp file "hash" = .ok fileHash)
    (hcontent : getFileContent s fileHash = .ok content)
    (hparent : getProp data "parent" = .ok parent) (ht : truthy parent = true) :
    showFile diffLines s data file = ([.file path, .content content], some .syntaxError) := by
  simp [showFile, hpath, hhash, hcontent, hparent, ht, jsonParse_promiseText]

/-- In a commit without parent, the round of the loop for a file whose content can be
read prints the path, the content and the first-commit line. -/
theorem showFile_first (s : State) (data : JsVal) (p h content : String)
    (hpl : plainName h = true) (hc : s.objects h = some content)
    (hparent : getProp data "parent" = .ok (some (.str ""))) :
    showFile diffLines s data (some (stagingEntry p h)) =
      ([.file (some (.str p)), .content content, .firstCommit], none) := by
  have h1 : getProp (some (stagingEntry p h)) "path" = .ok (some (.str p)) := by
    simp [getProp, stagingEntry, List.lookup]
  have h2 : getProp (some (stagingEntry p h)) "hash" = .ok (some (.str h)) := by
    simp [getProp, stagingEntry, List.lookup]
  have h3 : getFileContent s (some (.str h)) = .ok content := by
    simp [getFileContent, readObject, hpl, hc]
  simp [showFile, h1, h2, h3, hparent, truthy]

theorem showFiles_first (hplain : ∀ c, plainName (hash c) = true) (s : State) (data : JsVal)
    (hparent : getProp data "parent" = .ok (some (.str "")))
    (files : List (String × String)) (contents : List String)
    (h : List.Forall₂ (fun f x => s.objects (hash f.2) = some x) files contents) :
    showFiles diffLines s data ((files.map fun f => stagingEntry f.1 (hash f.2)).map some) =
      (firstCommitLines (List.zipWith (fun f x => (f.1, x)) files contents), none) := by
  induction h with
  | nil => simp [showFiles, firstCommitLines]
  | cons hx _ ih =>
    simp only [List.map_cons, showFiles,
      showFile_first diffLines s data _ _ _ (hplain _) hx hparent, ih, List.zipWith_cons_cons,
      firstCommitLines]
    simp

theorem exists_contents (s : State) (files : List (String × String))
    (h : ∀ f ∈ files, ∃ x, s.objects (hash f.2) = some x) :
    ∃ contents, List.Forall₂ (fun f x => s.objects (hash f.2) = some x) files contents := by
  induction files with
  | nil => exact ⟨[], List.Forall₂.nil⟩
  | cons f files ih =>
    obtain ⟨x, hx⟩ := h f (List.mem_cons_self _ _)
    obtain ⟨xs, hxs⟩ := ih (fun g hg => h g (List.mem_cons_of_mem _ hg))
    exact ⟨x :: xs, List.Forall₂.cons hx hxs⟩

/-- A sequence of `add` commands on a state whose index holds a JSON array: the
index gains one entry per file, `HEAD` stays, and every added content has an
object under its digest. -/
theorem run_addOps (hplain : ∀ c, plainName (hash c) = true) (files : List (String × String))
    (s : State) (text : String) (xs : List Json) (hidx : s.index = some text)
    (hparse : jsonParse text = .ok (.arr xs)) :
    (∃ text', (runOps hash s (addOps files)).index = some text' ∧
      jsonParse text' = .ok (.arr (xs ++ files.map fun f => stagingEntry f.1 (hash f.2)))) ∧
    (runOps hash s (addOps files)).head = s.head ∧
    (∀ k x, s.objects k = some x → ∃ y, (runOps hash s (addOps files)).objects k = some y) ∧
    (∀ f ∈ files, ∃ y, (runOps hash s (addOps files)).objects (hash f.2) = some y) := by
  induction files generalizing s text xs with
  | nil => exact ⟨⟨text, hidx, by simpa using hparse⟩, rfl, fun k x h => ⟨x, h⟩, by simp⟩
  | cons f files ih =>
    have hs := addFile_ok hash s text xs f.1 f.2 (hplain _) hidx hparse
    have hrun : runOps hash s (addOps (f :: files)) =
        runOps hash (addFile hash s f.1 f.2).state (addOps files) := rfl
    rw [hrun]
    obtain ⟨⟨t', i1, i2⟩, i3, i4, i5⟩ := ih (addFile hash s f.1 f.2).state _ _
      (by rw [hs]) (jsonParse_index_push text xs f.1 (hash f.2) hparse)
    refine ⟨⟨t', i1, by simpa using i2⟩, by rw [i3, hs], ?_, ?_⟩
    · intro k x hk
      by_cases hkc : k = hash f.2
      · exact i4 k f.2 (by rw [hs]; simp [hkc])
      · exact i4 k x (by rw [hs]; simpa [hkc] using hk)
    · intro g hg
      rcases List.mem_cons.1 hg with rfl | hg
      · exact i4 _ g.2 (by rw [hs]; simp)
      · exact i5 g hg

/-- Every object in the store after a sequence of commands was there before or is one
of the contents the commands hashed. -/
theorem runOps_objects_mem (ops : List Op) (s : State) (k x : String)
    (h : (runOps hash s ops).objects k = some x) :
    s.objects k = some x ∨ (x ∈ hashedContents hash s ops ∧ hash x = k) := by
  induction ops generalizing s with
  | nil => exact Or.inl h
  | cons op ops ih =>
    rw [hashedContents_cons]
    rcases ih _ h with h1 | ⟨h1, h2⟩
    · rcases step_objects_mem hash s op k with h3 | ⟨c, hc, h3, h4⟩
      · exact Or.inl (h3 ▸ h1)
      · rw [h3] at h1
        cases h1
        exact Or.inr ⟨List.mem_append_left _ hc, h4⟩
    · exact Or.inr ⟨List.mem_append_right _ h1, h2⟩

theorem hashedContents_append (a b : List Op) (s : State) :
    hashedContents hash s (a ++ b) =
      hashedContents hash s a ++ hashedContents hash (runOps hash s a) b := by
  induction a generalizing s with
  | nil => simp [hashedContents, runOps]
  | cons op a ih =>
    rw [List.cons_append, hashedContents_cons, hashedContents_cons hash s op a, ih]
    simp [runOps]

theorem runOps_append (a b : List Op) (s : State) :
    runOps hash s (a ++ b) = runOps hash (runOps hash s a) b := by
  induction a generalizing s with
  | nil => rfl
  | cons op a ih => simp [runOps, ih]

theorem hashedContents_addOps (files : List (String × String)) (s : State) :
    hashedContents hash s (addOps files) = files.map Prod.snd := by
  induction files generalizing s with
  | nil => rfl
  | cons f files ih =>
    simp only [addOps, List.map_cons, hashedContents] at ih ⊢
    rw [ih]

end ShowFacts

section ShowClaims

variable (hash : String → String) (diffLines : String → String → List DiffPart)

theorem forall₂_eq_snd (P : String × String → String → Prop) (files : List (String × String))
    (contents : List String) (key : ∀ f ∈ files, ∀ x, P f x → x = f.2)
    (h : List.Forall₂ P files contents) : contents = files.map Prod.snd := by
  induction h with
  | nil => rfl
  | cons hx _ ih =>
    rw [List.map_cons, key _ (List.mem_cons_self _ _) _ hx,
      ih (fun f hf => key f (List.mem_cons_of_mem _ hf))]

/-- What `showCommitDiff` prints for the first commit made on a freshly initialised
repository: the change line and then first-commit lines only. -/
theorem show_first_commit (hplain : ∀ c, plainName (hash c) = true)
    (files : List (String × String)) (msg ts : String) :
    ∃ digest lines,
      (runOps hash fresh (addOps files ++ [.commit msg ts])).head = some digest ∧
      showCommitDiff diffLines (runOps hash fresh (addOps files ++ [.commit msg ts])) digest =
        ⟨runOps hash fresh (addOps files ++ [.commit msg ts]),
          .changes :: firstCommitLines lines, none⟩ := by
  obtain ⟨⟨text, a1, a2⟩, a3, _, a5⟩ := run_addOps hash hplain files fresh _ []
    rfl jsonParse_empty_index
  simp only [List.nil_append] at a2
  obtain ⟨_, _, c3, c4, c5, _, c7⟩ := commit_spec hash hplain _ text _ msg ts a1 a2
  have hcur : getCurrentHead (runOps hash fresh (addOps files)) = .str "" := by
    simp only [getCurrentHead, a3]
    rfl
  rw [hcur] at c3 c4 c5 c7
  have hrun : runOps hash fresh (addOps files ++ [.commit msg ts]) =
      (commit hash (runOps hash fresh (addOps files)) msg ts).state := by
    rw [runOps_append]
    rfl
  have hstored : ∀ f ∈ files, ∃ x,
      (runOps hash fresh (addOps files ++ [.commit msg ts])).objects (hash f.2) = some x := by
    intro f hf
    rw [hrun, c5]
    obtain ⟨y, hy⟩ := a5 f hf
    by_cases hk : hash f.2 = hash (jsonStringify
      (commitData (.arr (files.map fun f => stagingEntry f.1 (hash f.2))) (.str "") msg ts))
    · exact ⟨_, if_pos hk⟩
    · exact ⟨y, (if_neg hk).trans hy⟩
  obtain ⟨contents, hcont⟩ := exists_contents hash _ files hstored
  refine ⟨_, List.zipWith (fun f x => (f.1, x)) files contents, by rw [hrun]; exact c4, ?_⟩
  · have hfiles := showFiles_first hash diffLines hplain _
      (some (commitData (.arr (files.map fun f => stagingEntry f.1 (hash f.2))) (.str "") msg ts))
      (getProp_commitData _ _ _ _).2.2.2 files contents hcont
    have hread : getCommitData (runOps hash fresh (addOps files ++ [.commit msg ts]))
        (hash (jsonStringify
          (commitData (.arr (files.map fun f => stagingEntry f.1 (hash f.2))) (.str "") msg ts)))
        = .ok (some (jsonStringify
          (commitData (.arr (files.map fun f => stagingEntry f.1 (hash f.2))) (.str "") msg ts)),
          []) := by
      have : (runOps hash fresh (addOps files ++ [.commit msg ts])).objects (hash (jsonStringify
          (commitData (.arr (files.map fun f => stagingEntry f.1 (hash f.2))) (.str "") msg ts)))
          = some (jsonStringify
          (commitData (.arr (files.map fun f => stagingEntry f.1 (hash f.2))) (.str "") msg ts)) := by
        rw [hrun, c5]
        simp
      simp [getCommitData, readObject, hplain, this]
    simp only [showCommitDiff, hread, jsonParseArg, Option.getD, c7]
    simp only [(getProp_commitData _ _ _ _).2.2.1, forOf, hfiles]
    simp [truthy, commitData]

/-- C9. For the first commit made on a freshly initialised repository, `showCommitDiff`
on its digest prints, for every entry of its files list in stored order, the
path, the content stored under the entry's digest and the first-commit line,
and nothing else: no diff and no new-file line.  When the hash separates the
contents that were hashed, the content printed is the content that was added. -/
theorem showCommitDiff_first_commit (hplain : ∀ c, plainName (hash c) = true)
    (files : List (String × String)) (msg ts : String) :
    ∃ digest contents,
      (runOps hash fresh (addOps files ++ [.commit msg ts])).head = some digest ∧
      List.Forall₂
        (fun f x => (runOps hash fresh (addOps files ++ [.commit msg ts])).objects (hash f.2)
          = some x) files contents ∧
      showCommitDiff diffLines (runOps hash fresh (addOps files ++ [.commit msg ts])) digest =
        ⟨runOps hash fresh (addOps files ++ [.commit msg ts]),
          .changes :: firstCommitLines (List.zipWith (fun f x => (f.1, x)) files contents),
          none⟩ ∧
      (Set.InjOn hash {c | c ∈ hashedContents hash fresh (addOps files ++ [.commit msg ts])} →
        contents = files.map Prod.snd) := by
  obtain ⟨⟨text, a1, a2⟩, a3, _, a5⟩ := run_addOps hash hplain files fresh _ []
    rfl jsonParse_empty_index
  simp only [List.nil_append] at a2
  obtain ⟨_, _, c3, c4, c5, _, c7⟩ := commit_spec hash hplain _ text _ msg ts a1 a2
  have hcur : getCurrentHead (runOps hash fresh (addOps files)) = .str "" := by
    simp only [getCurrentHead, a3]
    rfl
  rw [hcur] at c3 c4 c5 c7
  have hrun : runOps hash fresh (addOps files ++ [.commit msg ts]) =
      (commit hash (runOps hash fresh (addOps files)) msg ts).state := by
    rw [runOps_append]
    rfl
  have hstored : ∀ f ∈ files, ∃ x,
      (runOps hash fresh (addOps files ++ [.commit msg ts])).objects (hash f.2) = some x := by
    intro f hf
    rw [hrun, c5]
    obtain ⟨y, hy⟩ := a5 f hf
    by_cases hk : hash f.2 = hash (jsonStringify
      (commitData (.arr (files.map fun f => stagingEntry f.1 (hash f.2))) (.str "") msg ts))
    · exact ⟨_, if_pos hk⟩
    · exact ⟨y, (if_neg hk).trans hy⟩
  obtain ⟨contents, hcont⟩ := exists_contents hash _ files hstored
  refine ⟨_, contents, by rw [hrun]; exact c4, hcont, ?_, ?_⟩
  · have hfiles := showFiles_first hash diffLines hplain _
      (some (commitData (.arr (files.map fun f => stagingEntry f.1 (hash f.2))) (.str "") msg ts))
      (getProp_commitData _ _ _ _).2.2.2 files contents hcont
    have hread : getCommitData (runOps hash fresh (addOps files ++ [.commit msg ts]))
        (hash (jsonStringify
          (commitData (.arr (files.map fun f => stagingEntry f.1 (hash f.2))) (.str "") msg ts)))
        = .ok (some (jsonStringify
          (commitData (.arr (files.map fun f => stagingEntry f.1 (hash f.2))) (.str "") msg ts)),
          []) := by
      have : (runOps hash fresh (addOps files ++ [.commit msg ts])).objects (hash (jsonStringify
          (commitData (.arr (files.map fun f => stagingEntry f.1 (hash f.2))) (.str "") msg ts)))
          = some (jsonStringify
          (commitData (.arr (files.map fun f => stagingEntry f.1 (hash f.2))) (.str "") msg ts)) := by
        rw [hrun, c5]
        simp
      simp [getCommitData, readObject, hplain, this]
    simp only [showCommitDiff, hread, jsonParseArg, Option.getD, c7]
    simp only [(getProp_commitData _ _ _ _).2.2.1, forOf, hfiles]
    simp [truthy, commitData]
  · intro hinj
    have key : ∀ f ∈ files, ∀ x,
        (runOps hash fresh (addOps files ++ [.commit msg ts])).objects (hash f.2) = some x →
        x = f.2 := by
      intro f hf x hx
      rcases runOps_objects_mem hash _ fresh _ x hx with h1 | ⟨h1, h2⟩
      · simp [fresh, init, noRepo] at h1
      · refine hinj h1 ?_ h2
        rw [hashedContents_append, hashedContents_addOps]
        exact List.mem_append_left _ (List.mem_map_of_mem _ hf)
    exact forall₂_eq_snd _ files contents key hcont

/-- C9 on the first scenario of the specification. -/
theorem showCommitDiff_first_commit_witness :
    ∃ digest contents,
      (runOps toyHash fresh (addOps [("a.txt", "hello\n")] ++ [.commit "first" "t"])).head
        = some digest ∧
      List.Forall₂
        (fun f x =>
          (runOps toyHash fresh (addOps [("a.txt", "hello\n")] ++ [.commit "first" "t"])).objects
            (toyHash f.2) = some x) [("a.txt", "hello\n")] contents ∧
      showCommitDiff toyDiff
          (runOps toyHash fresh (addOps [("a.txt", "hello\n")] ++ [.commit "first" "t"])) digest =
        ⟨runOps toyHash fresh (addOps [("a.txt", "hello\n")] ++ [.commit "first" "t"]),
          .changes :: firstCommitLines
            (List.zipWith (fun f x => (f.1, x)) [("a.txt", "hello\n")] contents),
          none⟩ ∧
      (Set.InjOn toyHash {c | c ∈ hashedContents toyHash fresh
          (addOps [("a.txt", "hello\n")] ++ [.commit "first" "t"])} →
        contents = [("a.txt", "hello\n")].map Prod.snd) :=
  showCommitDiff_first_commit toyHash toyDiff toyHash_plain [("a.txt", "hello\n")] "first" "t"

end ShowClaims

/-! ## The parent of a commit -/

section ParentClaims

variable (hash : String → String) (diffLines : String → String → List DiffPart)

theorem lastCommit_none (ops : List Op) (h : lastCommit ops = none) :
    ∃ files, ops = addOps files := by
  induction ops with
  | nil => exact ⟨[], rfl⟩
  | cons op ops ih =>
    simp only [lastCommit] at h
    cases hl : lastCommit ops with
    | some v => rw [hl] at h; simp at h
    | none =>
      rw [hl] at h
      obtain ⟨files, hf⟩ := ih hl
      cases op with
      | commit m t => simp at h
      | add p c => exact ⟨(p, c) :: files, by rw [hf]; rfl⟩

theorem lastCommit_some (ops before : List Op) (m t : String)
    (h : lastCommit ops = some (before, m, t)) :
    ∃ files, ops = before ++ .commit m t :: addOps files := by
  induction ops generalizing before with
  | nil => simp [lastCommit] at h
  | cons op ops ih =>
    simp only [lastCommit] at h
    cases hl : lastCommit ops with
    | some v =>
      obtain ⟨b, m', t'⟩ := v
      rw [hl] at h
      simp only [Option.some.injEq, Prod.mk.injEq] at h
      obtain ⟨rfl, rfl, rfl⟩ := h
      obtain ⟨files, hf⟩ := ih b hl
      exact ⟨files, by rw [hf]; rfl⟩
    | none =>
      rw [hl] at h
      obtain ⟨files, hf⟩ := lastCommit_none ops hl
      cases op with
      | add p c => simp at h
      | commit m' t' =>
        simp only [Option.some.injEq, Prod.mk.injEq] at h
        obtain ⟨rfl, rfl, rfl⟩ := h
        exact ⟨files, by rw [hf]; rfl⟩

/-- C5, as the code has it. A `commit` on a state reached from a freshly initialised
repository returns and stores under the new `HEAD` a record whose `parent` is
the text `HEAD` held before.  When no commit was made before, that text is the
empty text, which `log` and `showCommitDiff` treat as no parent: `log` prints
this one commit and stops, `showCommitDiff` prints first-commit lines only.
Otherwise it is the digest under which the most recent `commit` command stored
its record; an object is still stored under it, and it is that record when the
hash separates the contents that were hashed.  `getCurrentHead` returns `null`
exactly when `HEAD` cannot be read; on a freshly initialised repository it
returns the empty text. -/
theorem commit_parent_is_previous_digest (hplain : ∀ c, plainName (hash c) = true)
    (ops : List Op) (msg ts : String) :
    (∀ s, getCurrentHead s = .null ↔ s.head = none) ∧
    getCurrentHead fresh = .str "" ∧
    (commit hash (runOps hash fresh ops) msg ts).err = none ∧
    ∃ digest record data p,
      (commit hash (runOps hash fresh ops) msg ts).state.head = some digest ∧
      (commit hash (runOps hash fresh ops) msg ts).state.objects digest = some record ∧
      digest = hash record ∧
      jsonParse record = .ok data ∧
      getProp (some data) "parent" = .ok (some (.str p)) ∧
      (runOps hash fresh ops).head = some p ∧
      match lastCommit ops with
      | none =>
        p = "" ∧ truthy (some (.str p)) = false ∧
        (∀ fuel, 1 ≤ fuel →
          log (commit hash (runOps hash fresh ops) msg ts).state fuel =
            some ⟨(commit hash (runOps hash fresh ops) msg ts).state,
              [.logRule, .logEntry (some (.str digest)) (some (.str ts)) (some (.str msg))],
              none⟩) ∧
        ∃ lines,
          showCommitDiff diffLines (commit hash (runOps hash fresh ops) msg ts).state digest =
            ⟨(commit hash (runOps hash fresh ops) msg ts).state,
              .changes :: firstCommitLines lines, none⟩
      | some (before, m, t) =>
        ∃ previous,
          commitText (runOps hash fresh before) m t = .ok previous ∧
          p = hash previous ∧
          (commit hash (runOps hash fresh before) m t).state.head = some p ∧
          (commit hash (runOps hash fresh before) m t).state.objects p = some previous ∧
          (∃ x, (runOps hash fresh ops).objects p = some x ∧ hash x = p) ∧
          (Set.InjOn hash {c | c ∈ hashedContents hash fresh ops} →
            (runOps hash fresh ops).objects p = some previous) := by
  obtain ⟨_, ⟨⟨text, xs, hidx, hparse⟩, hhead, _⟩, _⟩ :=
    run_good hash hplain ops fresh [] (fresh_good hash)
  obtain ⟨c1, _, _, c4, c5, _, c7⟩ := commit_spec hash hplain _ text _ msg ts hidx hparse
  have hcur : getCurrentHead (runOps hash fresh ops) =
      .str (headAfter ((commitsMade hash fresh ops).reverse ++ [])) := by
    simp only [getCurrentHead, hhead]
  rw [hcur] at c4 c5 c7
  refine ⟨?_, rfl, c1, _, _, _, _, c4, by rw [c5]; simp, rfl, c7,
    (getProp_commitData _ _ _ _).2.2.2, hhead, ?_⟩
  · intro s
    unfold getCurrentHead
    cases s.head <;> simp
  split
  · next hl =>
    obtain ⟨files, rfl⟩ := lastCommit_none ops hl
    have hp : headAfter ((commitsMade hash fresh (addOps files)).reverse ++ []) = "" := by
      have h3 := (run_addOps hash hplain files fresh _ [] rfl jsonParse_empty_index).2.1
      rw [hhead] at h3
      exact Option.some.inj h3
    rw [hp] at c4 c5 c7 ⊢
    refine ⟨rfl, by simp [truthy], ?_, ?_⟩
    · intro fuel hfuel
      have hl : Linked hash
          [⟨hash (jsonStringify (commitData (.arr xs) (.str "") msg ts)),
            jsonStringify (commitData (.arr xs) (.str "") msg ts), ts, msg⟩] :=
        ⟨rfl, ⟨.arr xs, c7⟩, trivial⟩
      have hst : Stored (commit hash (runOps hash fresh (addOps files)) msg ts).state
          [⟨hash (jsonStringify (commitData (.arr xs) (.str "") msg ts)),
            jsonStringify (commitData (.arr xs) (.str "") msg ts), ts, msg⟩] := by
        intro m hm
        rw [List.mem_singleton] at hm
        subst hm
        rw [c5]
        simp
      have := logLoop_linked hash hplain _ _ hl hst fuel [] (by simpa using hfuel)
      simp only [log, getCurrentHead, c4]
      simpa [logLines, headAfter] using this
    · obtain ⟨d, lines, h1, h2⟩ := show_first_commit hash diffLines hplain files msg ts
      have hrun : runOps hash fresh (addOps files ++ [.commit msg ts]) =
          (commit hash (runOps hash fresh (addOps files)) msg ts).state := by
        rw [runOps_append]
        rfl
      rw [hrun] at h1 h2
      rw [c4] at h1
      cases h1
      exact ⟨lines, h2⟩
  · next before m t hl =>
    obtain ⟨files, rfl⟩ := lastCommit_some ops before m t hl
    obtain ⟨_, ⟨⟨text0, xs0, hidx0, hparse0⟩, _, _⟩, _⟩ :=
      run_good hash hplain before fresh [] (fresh_good hash)
    obtain ⟨_, _, d3, d4, d5, d6, _⟩ :=
      commit_spec hash hplain _ text0 _ m t hidx0 hparse0
    have hrun : runOps hash fresh (before ++ .commit m t :: addOps files) =
        runOps hash (commit hash (runOps hash fresh before) m t).state (addOps files) := by
      rw [runOps_append]
      rfl
    obtain ⟨_, a3, a4, _⟩ := run_addOps hash hplain files
      (commit hash (runOps hash fresh before) m t).state _ [] d6 jsonParse_empty_index
    have hp : headAfter ((commitsMade hash fresh (before ++ .commit m t :: addOps files)).reverse
        ++ []) = hash (jsonStringify
          (commitData (.arr xs0) (getCurrentHead (runOps hash fresh before)) m t)) := by
      rw [hrun, a3, d4] at hhead
      exact (Option.some.inj hhead).symm
    have hkept : (commit hash (runOps hash fresh before) m t).state.objects
        (hash (jsonStringify
          (commitData (.arr xs0) (getCurrentHead (runOps hash fresh before)) m t))) =
        some (jsonStringify
          (commitData (.arr xs0) (getCurrentHead (runOps hash fresh before)) m t)) := by
      rw [d5]
      simp
    rw [hp]
    refine ⟨_, d3, rfl, d4, hkept, ?_, ?_⟩
    · obtain ⟨y, hy⟩ := a4 _ _ hkept
      rw [hrun]
      refine ⟨y, hy, ?_⟩
      have := runOps_addressed hash (before ++ .commit m t :: addOps files) fresh
        (by intro k c h; simp [fresh, init, noRepo] at h)
        (hash (jsonStringify
          (commitData (.arr xs0) (getCurrentHead (runOps hash fresh before)) m t))) y
      rw [hrun] at this
      exact this hy
    · intro hinj
      rw [hrun]
      apply runOps_keeps hash (addOps files) _ _ hkept
      intro x hx hxh
      have hmem : ∀ z, z ∈ jsonStringify
            (commitData (.arr xs0) (getCurrentHead (runOps hash fresh before)) m t) ::
            hashedContents hash (commit hash (runOps hash fresh before) m t).state (addOps files) →
          z ∈ hashedContents hash fresh (before ++ .commit m t :: addOps files) := by
        intro z hz
        rw [hashedContents_append]
        apply List.mem_append_right
        simpa only [hashedContents, d3] using hz
      exact hinj (hmem x (List.mem_cons_of_mem _ hx)) (hmem _ (List.mem_cons_self _ _)) hxh

end ParentClaims

/-! ## The scenarios of the specification, evaluated -/

set_option maxRecDepth 1000000

/-- C5 on the first two scenarios.  The first commit has the empty text as parent and
is treated as a commit without parent; the second commit has as parent the
digest under which the first commit stored its record. -/
theorem commit_parent_is_previous_digest_witness :
    ((∀ s, getCurrentHead s = .null ↔ s.head = none) ∧
      getCurrentHead fresh = .str "" ∧
      (commit toyHash (runOps toyHash fresh beforeFirst) "first" "t1").err = none ∧
      ∃ digest record data p,
        (commit toyHash (runOps toyHash fresh beforeFirst) "first" "t1").state.head
          = some digest ∧
        (commit toyHash (runOps toyHash fresh beforeFirst) "first" "t1").state.objects digest
          = some record ∧
        digest = toyHash record ∧
        jsonParse record = .ok data ∧
        getProp (some data) "parent" = .ok (some (.str p)) ∧
        (runOps toyHash fresh beforeFirst).head = some p ∧
        p = "" ∧ truthy (some (.str p)) = false ∧
        (∀ fuel, 1 ≤ fuel →
          log (commit toyHash (runOps toyHash fresh beforeFirst) "first" "t1").state fuel =
            some ⟨(commit toyHash (runOps toyHash fresh beforeFirst) "first" "t1").state,
              [.logRule, .logEntry (some (.str digest)) (some (.str "t1")) (some (.str "first"))],
              none⟩) ∧
        ∃ lines,
          showCommitDiff toyDiff
              (commit toyHash (runOps toyHash fresh beforeFirst) "first" "t1").state digest =
            ⟨(commit toyHash (runOps toyHash fresh beforeFirst) "first" "t1").state,
              .changes :: firstCommitLines lines, none⟩) ∧
    ((∀ s, getCurrentHead s = .null ↔ s.head = none) ∧
      getCurrentHead fresh = .str "" ∧
      (commit toyHash (runOps toyHash fresh beforeSecond) "second" "t2").err = none ∧
      ∃ digest record data p,
        (commit toyHash (runOps toyHash fresh beforeSecond) "second" "t2").state.head
          = some digest ∧
        (commit toyHash (runOps toyHash fresh beforeSecond) "second" "t2").state.objects digest
          = some record ∧
        digest = toyHash record ∧
        jsonParse record = .ok data ∧
        getProp (some data) "parent" = .ok (some (.str p)) ∧
        (runOps toyHash fresh beforeSecond).head = some p ∧
        ∃ previous,
          commitText (runOps toyHash fresh beforeFirst) "first" "2024-01-01T00:00:00.000Z"
            = .ok previous ∧
          p = toyHash previous ∧
          (commit toyHash (runOps toyHash fresh beforeFirst) "first"
            "2024-01-01T00:00:00.000Z").state.head = some p ∧
          (commit toyHash (runOps toyHash fresh beforeFirst) "first"
            "2024-01-01T00:00:00.000Z").state.objects p = some previous ∧
          (∃ x, (runOps toyHash fresh beforeSecond).objects p = some x ∧ toyHash x = p) ∧
          (Set.InjOn toyHash {c | c ∈ hashedContents toyHash fresh beforeSecond} →
            (runOps toyHash fresh beforeSecond).objects p = some previous)) :=
  ⟨commit_parent_is_previous_digest toyHash toyDiff toyHash_plain beforeFirst "first" "t1",
    commit_parent_is_previous_digest toyHash toyDiff toyHash_plain beforeSecond "second" "t2"⟩

/-- C5 as the specification states it fails on the first scenario: on a freshly
initialised repository `getCurrentHead` returns the empty text, not `null`, and
the record stored under `HEAD` by the first commit has the empty text as
parent, which is not `null` and not the key of an object stored before the
commit. -/
theorem first_commit_parent_not_null :
    getCurrentHead fresh ≠ .null ∧
    ∃ digest record data,
      (runOps toyHash fresh scenario1).head = some digest ∧
      (runOps toyHash fresh scenario1).objects digest = some record ∧
      jsonParse record = .ok data ∧
      getProp (some data) "parent" = .ok (some (.str "")) ∧
      getProp (some data) "parent" ≠ .ok (some .null) ∧
      ∀ k, fresh.objects k = none := by
  have hp := (getProp_commitData (.arr [stagingEntry "a.txt" (toyHash "hello\n")]) (.str "")
    "first" "2024-01-01T00:00:00.000Z").2.2.2
  refine ⟨by simp [getCurrentHead, fresh, init, noRepo], toyHash scenario1Text, scenario1Text,
    commitData (.arr [stagingEntry "a.txt" (toyHash "hello\n")]) (.str "") "first"
      "2024-01-01T00:00:00.000Z", rfl, rfl, rfl, hp, ?_, fun _ => rfl⟩
  rw [hp]
  simp

/-- C7 fails on the second scenario of the specification: `a.txt` is in the commit and
in its parent, and `showCommitDiff` on `HEAD` raises the `SyntaxError` of line
110 after printing the path and the content, whatever `diffLines` computes; no
part of a diff is printed. -/
theorem showCommitDiff_second_commit_raises (diffLines : String → String → List DiffPart) :
    ∃ digest, (runOps toyHash fresh scenario2).head = some digest ∧
      (showCommitDiff diffLines (runOps toyHash fresh scenario2) digest).err
        = some .syntaxError ∧
      (showCommitDiff diffLines (runOps toyHash fresh scenario2) digest).out
        = [.changes, .file (some (.str "a.txt")), .content "hello\nworld\n"] :=
  ⟨_, rfl, rfl, rfl⟩

/-- C8 fails on the third scenario of the specification: `b.txt` is in the commit and
not in its parent, and `showCommitDiff` on `HEAD` raises the `SyntaxError` of
line 110 after printing the path and the content; the new-file line is not
printed. -/
theorem showCommitDiff_new_file_raises (diffLines : String → String → List DiffPart) :
    ∃ digest, (runOps toyHash fresh scenario3).head = some digest ∧
      (showCommitDiff diffLines (runOps toyHash fresh scenario3) digest).err
        = some .syntaxError ∧
      (showCommitDiff diffLines (runOps toyHash fresh scenario3) digest).out
        = [.changes, .file (some (.str "b.txt")), .content "new\n"] :=
  ⟨_, rfl, rfl, rfl⟩

end Rover
